import Mathlib

/-!
# CS300 course planner: ordered catalog and CSV loader

A shallow embedding of `CS300_Project2.cpp`.

* A `std::string` is a list of characters; every character stands for one byte
  (`unsigned char`), classified as in the default "C" locale, which the program
  never changes.
* A `Node*` is a value of the inductive type `Node`; `nullptr` is `Node.null`.
* The member `count` of `CourseBST` is threaded through `insertRec` explicitly.
* The counters of type `size_t` are natural numbers: each of them counts nodes
  or lines that are held in memory or in the file, so none can reach `2^64`.
* An `ifstream` is `none` when `is_open()` is false, and otherwise the sequence
  of lines that the successive `getline(fin, line)` calls deliver.
-/

namespace CS300

/-! ## Utility helpers -/

/-- `std::isspace` in the "C" locale: space, and `\t \n \v \f \r` (codes 9 to 13). -/
def isspace (ch : Char) : Bool :=
  ch.toNat = 32 || (9 ≤ ch.toNat && ch.toNat ≤ 13)

/-- `std::toupper` in the "C" locale: only `a`..`z` are changed. -/
def toupper (c : Char) : Char :=
  if 97 ≤ c.toNat ∧ c.toNat ≤ 122 then Char.ofNat (c.toNat - 32) else c

/-- `ltrim`: erases the prefix before the first non-space character. -/
def ltrim (s : List Char) : List Char :=
  s.dropWhile isspace

/-- `rtrim`: erases the suffix after the last non-space character. -/
def rtrim (s : List Char) : List Char :=
  (s.reverse.dropWhile isspace).reverse

/-- `trim(s) = rtrim(ltrim(s))`. -/
def trim (s : List Char) : List Char :=
  rtrim (ltrim s)

/-- `upper`: upper-case copy, character by character. -/
def upper (s : List Char) : List Char :=
  s.map toupper

/-- `operator<` of `std::string`: lexicographic comparison of the characters as
unsigned values, a proper prefix being smaller. -/
def strLt : List Char → List Char → Bool
  | [], [] => false
  | [], _ :: _ => true
  | _ :: _, [] => false
  | a :: as, b :: bs =>
    if a.toNat < b.toNat then true
    else if b.toNat < a.toNat then false
    else strLt as bs

/-- One call `getline(ss, token, delim)` on a stream whose unread characters are
`ss`: `none` when nothing can be extracted (the call sets failbit), otherwise the
token read and the characters left unread (the delimiter is consumed). -/
def getline (ss : List Char) (delim : Char) : Option (List Char × List Char) :=
  match ss with
  | [] => none
  | _ :: _ => some (ss.takeWhile (fun ch => ch != delim),
                    (ss.dropWhile (fun ch => ch != delim)).drop 1)

/-- The loop `while (getline(ss, token, ',')) out.push_back(trim(token))`, run
character by character: `token` holds what the current `getline` has read so
far. A comma ends the call and its token is pushed; the end of the stream ends
the call too, which then fails, and ends the loop, when it has read nothing. -/
def splitLoop (token : List Char) : List Char → List (List Char)
  | [] => if token = [] then [] else [trim token]
  | ch :: rest =>
    if ch = ',' then trim token :: splitLoop [] rest
    else splitLoop (token ++ [ch]) rest

/-- `splitCSV`: the trimmed comma-separated tokens of a line. -/
def splitCSV (line : List Char) : List (List Char) :=
  splitLoop [] line

/-! ## Data model -/

/-- The struct `Course`. -/
structure Course where
  number : List Char
  title : List Char
  prerequisites : List (List Char)
deriving DecidableEq, Repr

/-- A `Node*`: either `nullptr` or a node with its course and two children. -/
inductive Node where
  | null : Node
  | mk (course : Course) (left right : Node) : Node
deriving DecidableEq, Repr

/-- The class `CourseBST`: its members `root` and `count`. -/
structure CourseBST where
  root : Node
  count : Nat
deriving DecidableEq, Repr

/-- The constructor `CourseBST()`. -/
def CourseBST.new : CourseBST :=
  { root := Node.null, count := 0 }

/-- `insertRec`: returns the new subtree and the new value of `count`. -/
def insertRec (count : Nat) : Node → Course → Node × Nat
  | Node.null, c => (Node.mk c Node.null Node.null, count + 1)
  | Node.mk course left right, c =>
    let key := upper c.number
    let here := upper course.number
    if strLt key here then
      ((Node.mk course (insertRec count left c).1 right), (insertRec count left c).2)
    else if strLt here key then
      ((Node.mk course left (insertRec count right c).1), (insertRec count right c).2)
    else
      (Node.mk c left right, count)

/-- `CourseBST::insert`. -/
def CourseBST.insert (t : CourseBST) (c : Course) : CourseBST :=
  { root := (insertRec t.count t.root c).1, count := (insertRec t.count t.root c).2 }

/-- The loop of `CourseBST::find`, started at `cur`, for the upper-cased key `k`. -/
def findLoop (k : List Char) : Node → Option Course
  | Node.null => none
  | Node.mk course left right =>
    let here := upper course.number
    if k = here then some course
    else if strLt k here then findLoop k left
    else findLoop k right

/-- `CourseBST::find`: the record found, or `none` for `nullptr`. -/
def CourseBST.find (t : CourseBST) (key : List Char) : Option Course :=
  findLoop (upper key) t.root

/-- `inOrderRec`: the records visited, in the order in which they are printed. -/
def inOrderRec : Node → List Course
  | Node.null => []
  | Node.mk course left right => inOrderRec left ++ course :: inOrderRec right

/-- The text that `inOrderRec` writes for one record. -/
def courseLine (c : Course) : List Char :=
  c.number ++ ", ".toList ++ c.title ++ [Char.ofNat 10]

/-- `CourseBST::printInOrder`: the text written to `cout`. -/
def CourseBST.printInOrder (t : CourseBST) : List Char :=
  match t.root with
  | Node.null => "No courses loaded. Choose option 1 to load the data.".toList ++ [Char.ofNat 10]
  | n => (inOrderRec n).flatMap courseLine

/-- `CourseBST::size`. -/
def CourseBST.size (t : CourseBST) : Nat :=
  t.count

/-- `CourseBST::clear`. -/
def CourseBST.clear (_t : CourseBST) : CourseBST :=
  { root := Node.null, count := 0 }

/-! ## File loading -/

/-- The variables of the loop of `loadCoursesFromCSV`, and the line numbers of
the warnings written to `cerr` so far. -/
structure LoadState where
  bst : CourseBST
  lineNo : Nat
  loaded : Nat
  warnings : List Nat
deriving DecidableEq, Repr

/-- The record that the loop body builds from the columns of an accepted line. -/
def courseOfCols (cols : List (List Char)) (h : ¬ cols.length < 2) : Course :=
  { number := cols.get ⟨0, by omega⟩
    title := cols.get ⟨1, by omega⟩
    prerequisites := (cols.drop 2).filter (fun col => !col.isEmpty) }

/-- One iteration of the loop of `loadCoursesFromCSV`, for the line just read. -/
def loadLine (st : LoadState) (raw : List Char) : LoadState :=
  let lineNo := st.lineNo + 1
  let line := trim raw
  if line.isEmpty then { st with lineNo := lineNo }
  else
    let cols := splitCSV line
    if h : cols.length < 2 then
      { st with lineNo := lineNo, warnings := st.warnings ++ [lineNo] }
    else
      { bst := st.bst.insert (courseOfCols cols h)
        lineNo := lineNo
        loaded := st.loaded + 1
        warnings := st.warnings }

/-- What a call of `loadCoursesFromCSV` leaves behind: the catalog, the value
returned, the line numbers of the warnings, and whether the open error was
reported. -/
structure LoadResult where
  bst : CourseBST
  returned : Nat
  warnings : List Nat
  openError : Bool
deriving DecidableEq, Repr

/-- `loadCoursesFromCSV`. -/
def loadCoursesFromCSV (fin : Option (List (List Char))) (bst : CourseBST) : LoadResult :=
  match fin with
  | none => { bst := bst, returned := 0, warnings := [], openError := true }
  | some lines =>
    let st := lines.foldl loadLine
      { bst := bst.clear, lineNo := 0, loaded := 0, warnings := [] }
    { bst := st.bst, returned := st.loaded, warnings := st.warnings, openError := false }

/-! ## Derived notions used in the statements -/

/-- The catalog obtained from the empty one by inserting `cs` from left to right. -/
def build (cs : List Course) : CourseBST :=
  cs.foldl CourseBST.insert CourseBST.new

/-- The upper-cased course numbers of the records visited in order below `n`. -/
def keys (n : Node) : List (List Char) :=
  (inOrderRec n).map (fun c => upper c.number)

/-! ## The order on strings -/

theorem toNat_inj {a b : Char} (h : a.toNat = b.toNat) : a = b := by
  rw [← Char.ofNat_toNat a, ← Char.ofNat_toNat b, h]

theorem strLt_irrefl (a : List Char) : strLt a a = false := by
  induction a with
  | nil => rfl
  | cons x xs ih => simp [strLt, ih]

theorem strLt_trans {a b c : List Char} (hab : strLt a b = true) (hbc : strLt b c = true) :
    strLt a c = true := by
  induction a generalizing b c with
  | nil =>
    cases b with
    | nil => simp [strLt] at hab
    | cons y ys =>
      cases c with
      | nil => simp [strLt] at hbc
      | cons z zs => simp [strLt]
  | cons x xs ih =>
    cases b with
    | nil => simp [strLt] at hab
    | cons y ys =>
      cases c with
      | nil => simp [strLt] at hbc
      | cons z zs =>
        simp only [strLt] at hab hbc ⊢
        by_cases hxy : x.toNat < y.toNat
        · by_cases hyz : y.toNat < z.toNat
          · have : x.toNat < z.toNat := by omega
            simp [this]
          · by_cases hzy : z.toNat < y.toNat
            · simp [hyz, hzy] at hbc
            · have : x.toNat < z.toNat := by omega
              simp [this]
        · by_cases hyx : y.toNat < x.toNat
          · simp [hxy, hyx] at hab
          · simp only [hxy, hyx, if_false] at hab
            by_cases hyz : y.toNat < z.toNat
            · have : x.toNat < z.toNat := by omega
              simp [this]
            · by_cases hzy : z.toNat < y.toNat
              · simp [hyz, hzy] at hbc
              · simp only [hyz, hzy, if_false] at hbc
                have h1 : ¬ x.toNat < z.toNat := by omega
                have h2 : ¬ z.toNat < x.toNat := by omega
                simp only [h1, h2, Bool.false_eq_true, if_false]
                exact ih hab hbc

theorem strLt_asymm {a b : List Char} (hab : strLt a b = true) : strLt b a = false := by
  cases h : strLt b a with
  | false => rfl
  | true =>
    have hcyc := strLt_trans hab h
    simp [strLt_irrefl] at hcyc

theorem strLt_total {a b : List Char} (hab : strLt a b = false) (hba : strLt b a = false) :
    a = b := by
  induction a generalizing b with
  | nil =>
    cases b with
    | nil => rfl
    | cons y ys => simp [strLt] at hab
  | cons x xs ih =>
    cases b with
    | nil => simp [strLt] at hba
    | cons y ys =>
      simp only [strLt] at hab hba
      by_cases hxy : x.toNat < y.toNat
      · simp [hxy] at hab
      · by_cases hyx : y.toNat < x.toNat
        · simp [hyx] at hba
        · simp only [hxy, hyx, if_false] at hab hba
          have : x = y := toNat_inj (by omega)
          rw [this, ih hab hba]

/-- The code's `operator<` is the lexicographic order of the character codes. -/
theorem strLt_iff_lex (a b : List Char) :
    strLt a b = true ↔ List.Lex (fun x y : Char => x.toNat < y.toNat) a b := by
  induction a generalizing b with
  | nil =>
    cases b with
    | nil => simp [strLt]
    | cons y ys => simp [strLt, List.Lex.nil]
  | cons x xs ih =>
    cases b with
    | nil => simp [strLt]
    | cons y ys =>
      simp only [strLt]
      by_cases hxy : x.toNat < y.toNat
      · simp only [hxy, if_true, true_iff]
        exact List.Lex.rel hxy
      · by_cases hyx : y.toNat < x.toNat
        · simp only [hxy, hyx, if_false, if_true]
          constructor
          · intro h; cases h
          · intro h
            cases h with
            | cons h => omega
            | rel h => omega
        · simp only [hxy, hyx, if_false]
          have hxe : x = y := toNat_inj (by omega)
          subst hxe
          rw [ih]
          constructor
          · intro h; exact List.Lex.cons h
          · intro h
            cases h with
            | cons h => exact h
            | rel h => omega

/-! ## The search-tree invariant -/

/-- The keys visited in order are strictly ascending. -/
def Ordered (n : Node) : Prop :=
  (keys n).Pairwise (fun a b => strLt a b = true)

theorem keys_null : keys Node.null = [] := rfl

theorem keys_mk (course : Course) (l r : Node) :
    keys (Node.mk course l r) = keys l ++ upper course.number :: keys r := by
  simp [keys, inOrderRec]

theorem ordered_null : Ordered Node.null := by
  simp [Ordered, keys_null]

theorem ordered_mk (course : Course) (l r : Node) :
    Ordered (Node.mk course l r) ↔
      Ordered l ∧ Ordered r ∧ (∀ a ∈ keys l, strLt a (upper course.number) = true) ∧
        (∀ b ∈ keys r, strLt (upper course.number) b = true) := by
  unfold Ordered
  rw [keys_mk, List.pairwise_append, List.pairwise_cons]
  constructor
  · rintro ⟨hl, ⟨hr1, hr2⟩, hlr⟩
    exact ⟨hl, hr2, fun a ha => hlr a ha _ (List.mem_cons_self _ _), hr1⟩
  · rintro ⟨hl, hr, h1, h2⟩
    refine ⟨hl, ⟨h2, hr⟩, ?_⟩
    intro a ha b hb
    rcases List.mem_cons.mp hb with hb | hb
    · rw [hb]; exact h1 a ha
    · exact strLt_trans (h1 a ha) (h2 b hb)

theorem mem_keys_insertRec (cnt : Nat) (n : Node) (c : Course) (k : List Char) :
    k ∈ keys (insertRec cnt n c).1 ↔ k = upper c.number ∨ k ∈ keys n := by
  induction n with
  | null => simp [insertRec, keys, inOrderRec]
  | mk course l r ihl ihr =>
    unfold insertRec
    by_cases h1 : strLt (upper c.number) (upper course.number) = true
    · simp only [h1, if_true, keys_mk, List.mem_append, List.mem_cons, ihl]
      tauto
    · by_cases h2 : strLt (upper course.number) (upper c.number) = true
      · simp only [h1, h2, Bool.false_eq_true, if_true, if_false, keys_mk, List.mem_append, List.mem_cons, ihr]
        tauto
      · have he : upper c.number = upper course.number :=
          strLt_total (by simpa using h1) (by simpa using h2)
        simp only [h1, h2, Bool.false_eq_true, if_false, keys_mk, List.mem_append, List.mem_cons]
        rw [he]
        clear ihl ihr
        tauto

theorem ordered_insertRec (cnt : Nat) (n : Node) (c : Course) (h : Ordered n) :
    Ordered (insertRec cnt n c).1 := by
  induction n with
  | null =>
    simp [insertRec, Ordered, keys, inOrderRec]
  | mk course l r ihl ihr =>
    obtain ⟨hl, hr, hlt, hgt⟩ := (ordered_mk course l r).mp h
    unfold insertRec
    by_cases h1 : strLt (upper c.number) (upper course.number) = true
    · simp only [h1, if_true]
      refine (ordered_mk _ _ _).mpr ⟨ihl hl, hr, ?_, hgt⟩
      intro a ha
      rcases (mem_keys_insertRec cnt l c a).mp ha with ha | ha
      · rw [ha]; exact h1
      · exact hlt a ha
    · by_cases h2 : strLt (upper course.number) (upper c.number) = true
      · simp only [h1, h2, Bool.false_eq_true, if_true, if_false]
        refine (ordered_mk _ _ _).mpr ⟨hl, ihr hr, hlt, ?_⟩
        intro b hb
        rcases (mem_keys_insertRec cnt r c b).mp hb with hb | hb
        · rw [hb]; exact h2
        · exact hgt b hb
      · have he : upper c.number = upper course.number :=
          strLt_total (by simpa using h1) (by simpa using h2)
        simp only [h1, h2, Bool.false_eq_true, if_false]
        refine (ordered_mk _ _ _).mpr ⟨hl, hr, ?_, ?_⟩
        · rw [he]; exact hlt
        · rw [he]; exact hgt

/-- The counter grows by exactly the number of nodes that `insertRec` adds. -/
theorem count_insertRec (cnt : Nat) (n : Node) (c : Course) :
    (insertRec cnt n c).2 + (inOrderRec n).length =
      cnt + (inOrderRec (insertRec cnt n c).1).length := by
  induction n with
  | null => simp [insertRec, inOrderRec]
  | mk course l r ihl ihr =>
    unfold insertRec
    by_cases h1 : strLt (upper c.number) (upper course.number) = true
    · simp only [h1, if_true, inOrderRec, List.length_append, List.length_cons]
      omega
    · by_cases h2 : strLt (upper course.number) (upper c.number) = true
      · simp only [h1, h2, Bool.false_eq_true, if_true, if_false, inOrderRec, List.length_append, List.length_cons]
        omega
      · simp only [h1, h2, Bool.false_eq_true, if_false, inOrderRec, List.length_append, List.length_cons]

/-- In an ordered tree a key that is present is overwritten: no node is added. -/
theorem length_insertRec_of_mem (cnt : Nat) (n : Node) (c : Course) (h : Ordered n)
    (hk : upper c.number ∈ keys n) :
    (inOrderRec (insertRec cnt n c).1).length = (inOrderRec n).length := by
  induction n with
  | null => simp [keys, inOrderRec] at hk
  | mk course l r ihl ihr =>
    obtain ⟨hl, hr, hlt, hgt⟩ := (ordered_mk course l r).mp h
    rw [keys_mk, List.mem_append, List.mem_cons] at hk
    unfold insertRec
    by_cases h1 : strLt (upper c.number) (upper course.number) = true
    · simp only [h1, if_true, inOrderRec, List.length_append, List.length_cons]
      have hin : upper c.number ∈ keys l := by
        rcases hk with hk | hk | hk
        · exact hk
        · rw [hk, strLt_irrefl] at h1; exact absurd h1 (by simp)
        · have h3 := strLt_asymm (hgt _ hk)
          rw [h1] at h3; exact absurd h3 (by simp)
      rw [ihl hl hin]
    · by_cases h2 : strLt (upper course.number) (upper c.number) = true
      · simp only [h1, h2, Bool.false_eq_true, if_true, if_false, inOrderRec, List.length_append, List.length_cons]
        have hin : upper c.number ∈ keys r := by
          rcases hk with hk | hk | hk
          · have h3 := strLt_asymm (hlt _ hk)
            rw [h2] at h3; exact absurd h3 (by simp)
          · rw [hk, strLt_irrefl] at h2; exact absurd h2 (by simp)
          · exact hk
        rw [ihr hr hin]
      · simp only [h1, h2, Bool.false_eq_true, if_false, inOrderRec, List.length_append, List.length_cons]

/-- A key that is absent gets a new node. -/
theorem length_insertRec_of_not_mem (cnt : Nat) (n : Node) (c : Course)
    (hk : upper c.number ∉ keys n) :
    (inOrderRec (insertRec cnt n c).1).length = (inOrderRec n).length + 1 := by
  induction n with
  | null => simp [insertRec, inOrderRec]
  | mk course l r ihl ihr =>
    rw [keys_mk, List.mem_append, List.mem_cons] at hk
    unfold insertRec
    by_cases h1 : strLt (upper c.number) (upper course.number) = true
    · simp only [h1, if_true, inOrderRec, List.length_append, List.length_cons]
      rw [ihl (fun hh => hk (Or.inl hh))]
      omega
    · by_cases h2 : strLt (upper course.number) (upper c.number) = true
      · simp only [h1, h2, Bool.false_eq_true, if_true, if_false, inOrderRec, List.length_append, List.length_cons]
        rw [ihr (fun hh => hk (Or.inr (Or.inr hh)))]
        omega
      · have he : upper c.number = upper course.number :=
          strLt_total (by simpa using h1) (by simpa using h2)
        exact absurd (Or.inr (Or.inl he)) hk

theorem mem_inOrderRec_insertRec (cnt : Nat) (n : Node) (c e : Course)
    (h : e ∈ inOrderRec (insertRec cnt n c).1) : e = c ∨ e ∈ inOrderRec n := by
  induction n with
  | null => simpa [insertRec, inOrderRec] using h
  | mk course l r ihl ihr =>
    unfold insertRec at h
    by_cases h1 : strLt (upper c.number) (upper course.number) = true
    · simp only [h1, if_true, inOrderRec, List.mem_append, List.mem_cons] at h ⊢
      rcases h with h | h | h
      · rcases ihl h with h | h
        · exact Or.inl h
        · exact Or.inr (Or.inl h)
      · exact Or.inr (Or.inr (Or.inl h))
      · exact Or.inr (Or.inr (Or.inr h))
    · by_cases h2 : strLt (upper course.number) (upper c.number) = true
      · simp only [h1, h2, Bool.false_eq_true, if_true, if_false, inOrderRec, List.mem_append, List.mem_cons] at h ⊢
        rcases h with h | h | h
        · exact Or.inr (Or.inl h)
        · exact Or.inr (Or.inr (Or.inl h))
        · rcases ihr h with h | h
          · exact Or.inl h
          · exact Or.inr (Or.inr (Or.inr h))
      · simp only [h1, h2, Bool.false_eq_true, if_false, inOrderRec, List.mem_append, List.mem_cons] at h ⊢
        rcases h with h | h | h
        · exact Or.inr (Or.inl h)
        · exact Or.inl h
        · exact Or.inr (Or.inr (Or.inr h))

theorem self_mem_inOrderRec_insertRec (cnt : Nat) (n : Node) (c : Course) :
    c ∈ inOrderRec (insertRec cnt n c).1 := by
  induction n with
  | null => simp [insertRec, inOrderRec]
  | mk course l r ihl ihr =>
    unfold insertRec
    by_cases h1 : strLt (upper c.number) (upper course.number) = true
    · simp only [h1, if_true, inOrderRec, List.mem_append, List.mem_cons]
      exact Or.inl ihl
    · by_cases h2 : strLt (upper course.number) (upper c.number) = true
      · simp only [h1, h2, Bool.false_eq_true, if_true, if_false, inOrderRec, List.mem_append, List.mem_cons]
        exact Or.inr (Or.inr ihr)
      · simp [h1, h2, inOrderRec]

/-! ## Lookup -/

theorem findLoop_insertRec (cnt : Nat) (n : Node) (c : Course) :
    findLoop (upper c.number) (insertRec cnt n c).1 = some c := by
  induction n with
  | null => simp [insertRec, findLoop]
  | mk course l r ihl ihr =>
    unfold insertRec
    cases h1 : strLt (upper c.number) (upper course.number) with
    | true =>
      have hne : upper c.number ≠ upper course.number := by
        intro he; rw [he, strLt_irrefl] at h1; exact absurd h1 (by simp)
      simp only [if_true, findLoop, hne, if_false, h1]
      exact ihl
    | false =>
      cases h2 : strLt (upper course.number) (upper c.number) with
      | true =>
        have hne : upper c.number ≠ upper course.number := by
          intro he; rw [he, strLt_irrefl] at h2; exact absurd h2 (by simp)
        simp only [Bool.false_eq_true, if_true, if_false, findLoop, hne, h1, h2]
        exact ihr
      | false =>
        simp [findLoop, h1, h2]

theorem findLoop_some {k : List Char} {n : Node} {e : Course} (h : findLoop k n = some e) :
    e ∈ inOrderRec n ∧ upper e.number = k := by
  induction n with
  | null => simp [findLoop] at h
  | mk course l r ihl ihr =>
    unfold findLoop at h
    by_cases h0 : k = upper course.number
    · simp only [h0, if_true, Option.some.injEq] at h
      subst h
      exact ⟨by simp [inOrderRec], h0.symm⟩
    · cases h1 : strLt k (upper course.number) with
      | true =>
        simp only [h0, h1, if_true, if_false] at h
        exact ⟨by simp [inOrderRec, (ihl h).1], (ihl h).2⟩
      | false =>
        simp only [h0, h1, Bool.false_eq_true, if_false] at h
        exact ⟨by simp [inOrderRec, (ihr h).1], (ihr h).2⟩

theorem findLoop_eq_none_iff (k : List Char) (n : Node) (h : Ordered n) :
    findLoop k n = none ↔ k ∉ keys n := by
  induction n with
  | null => simp [findLoop, keys, inOrderRec]
  | mk course l r ihl ihr =>
    obtain ⟨hl, hr, hlt, hgt⟩ := (ordered_mk course l r).mp h
    unfold findLoop
    rw [keys_mk, List.mem_append, List.mem_cons]
    by_cases h0 : k = upper course.number
    · simp [h0]
    · cases h1 : strLt k (upper course.number) with
      | true =>
        simp only [h0, h1, if_true, if_false, ihl hl]
        have hr2 : k ∉ keys r := by
          intro hk
          have h3 := strLt_asymm (hgt k hk)
          rw [h1] at h3; exact absurd h3 (by simp)
        tauto
      | false =>
        simp only [h0, h1, Bool.false_eq_true, if_false, ihr hr]
        have hl2 : k ∉ keys l := by
          intro hk
          have h3 := hlt k hk
          rw [h1] at h3; exact absurd h3 (by simp)
        tauto

/-! ## Catalogs built by inserts -/

/-- The invariant of a catalog: ordered keys, and `count` is the number of nodes. -/
def WF (t : CourseBST) : Prop :=
  Ordered t.root ∧ t.count = (inOrderRec t.root).length

theorem wf_new : WF CourseBST.new :=
  ⟨ordered_null, rfl⟩

theorem wf_insert (t : CourseBST) (c : Course) (h : WF t) : WF (t.insert c) := by
  refine ⟨ordered_insertRec t.count t.root c h.1, ?_⟩
  have hc := count_insertRec t.count t.root c
  have h2 := h.2
  simp only [CourseBST.insert]
  omega

theorem wf_foldl (cs : List Course) (t : CourseBST) (h : WF t) :
    WF (cs.foldl CourseBST.insert t) := by
  induction cs generalizing t with
  | nil => exact h
  | cons c cs ih => exact ih _ (wf_insert t c h)

theorem wf_build (cs : List Course) : WF (build cs) :=
  wf_foldl cs _ wf_new

theorem mem_keys_foldl (cs : List Course) (t : CourseBST) (k : List Char) :
    k ∈ keys (cs.foldl CourseBST.insert t).root ↔
      k ∈ keys t.root ∨ k ∈ cs.map (fun c => upper c.number) := by
  induction cs generalizing t with
  | nil => simp
  | cons c cs ih =>
    rw [List.foldl_cons, ih, List.map_cons, List.mem_cons]
    simp only [CourseBST.insert, mem_keys_insertRec]
    tauto

theorem mem_keys_build (cs : List Course) (k : List Char) :
    k ∈ keys (build cs).root ↔ k ∈ cs.map (fun c => upper c.number) := by
  unfold build
  rw [mem_keys_foldl]
  simp [CourseBST.new, keys, inOrderRec]

theorem nodup_keys {n : Node} (h : Ordered n) : (keys n).Nodup := by
  refine List.Pairwise.imp ?_ h
  intro a b hab he
  rw [he, strLt_irrefl] at hab
  exact absurd hab (by simp)

/-- In an ordered tree, two visited records with the same key are the same record. -/
theorem eq_of_key_eq {n : Node} (h : Ordered n) {a b : Course} (ha : a ∈ inOrderRec n)
    (hb : b ∈ inOrderRec n) (hk : upper a.number = upper b.number) : a = b := by
  by_contra hne
  have hp : (inOrderRec n).Pairwise (fun x y => upper x.number ≠ upper y.number) := by
    have h1 := nodup_keys h
    unfold keys List.Nodup at h1
    exact List.pairwise_map.mp h1
  have hs : Symmetric (fun x y : Course => upper x.number ≠ upper y.number) :=
    fun x y hxy => Ne.symm hxy
  exact hp.forall hs ha hb hne hk

/-! ## Splitting a line -/

/-- Spec: the comma-separated fields of a line, in the usual sense of splitting
at every comma: a line with `n` commas has `n + 1` fields. -/
def specFields (line : List Char) : List (List Char) :=
  line.splitOn ','

/-- Removes the last element of a list of fields when that element is empty. -/
def dropLastEmpty : List (List Char) → List (List Char)
  | [] => []
  | [x] => if x = [] then [] else [x]
  | x :: y :: rest => x :: dropLastEmpty (y :: rest)

theorem specFields_nil : specFields [] = [[]] := rfl

theorem specFields_cons (c : Char) (s : List Char) :
    specFields (c :: s) =
      if c = ',' then [] :: specFields s else (specFields s).modifyHead (List.cons c) := by
  unfold specFields List.splitOn
  rw [List.splitOnP_cons]
  by_cases h : c = ',' <;> simp [h]

theorem specFields_ne_nil (s : List Char) : specFields s ≠ [] :=
  List.splitOnP_ne_nil _ _

theorem specFields_of_no_comma (s : List Char) (h : ',' ∉ s) : specFields s = [s] := by
  unfold specFields List.splitOn
  apply List.splitOnP_eq_single
  intro x hx hxc
  rw [beq_iff_eq] at hxc
  exact h (hxc ▸ hx)

/-- The loop of `splitCSV` in terms of the comma-separated fields: the pending
token is put in front of the first field, a last field that is empty is not
delivered, and every field is trimmed. -/
theorem splitLoop_eq (tok s : List Char) :
    splitLoop tok s =
      (dropLastEmpty ((specFields s).modifyHead (fun f => tok ++ f))).map trim := by
  induction s generalizing tok with
  | nil =>
    by_cases h : tok = [] <;> simp [splitLoop, specFields_nil, dropLastEmpty, h]
  | cons c s ih =>
    obtain ⟨f, fs, hf⟩ := List.exists_cons_of_ne_nil (specFields_ne_nil s)
    by_cases h : c = ','
    · simp [splitLoop, specFields_cons, h, ih, hf, dropLastEmpty]
    · simp [splitLoop, specFields_cons, h, ih, hf, dropLastEmpty]

theorem splitCSV_eq (line : List Char) :
    splitCSV line = (dropLastEmpty (specFields line)).map trim := by
  unfold splitCSV
  rw [splitLoop_eq]
  obtain ⟨f, fs, hf⟩ := List.exists_cons_of_ne_nil (specFields_ne_nil line)
  simp [hf]

theorem splitLoop_step (tok s : List Char) (h : tok ++ s ≠ []) :
    splitLoop tok s =
      trim (tok ++ s.takeWhile (fun ch => ch != ',')) ::
        splitLoop [] ((s.dropWhile (fun ch => ch != ',')).drop 1) := by
  induction s generalizing tok with
  | nil =>
    have ht : tok ≠ [] := by simpa using h
    simp [splitLoop, ht]
  | cons c s ih =>
    by_cases hc : c = ','
    · simp [splitLoop, hc]
    · rw [splitLoop, if_neg hc, ih (tok ++ [c]) (by simp)]
      simp [hc]

/-- The loop of `splitCSV` is the iteration of `getline` until it fails. -/
theorem splitCSV_getline (line : List Char) :
    splitCSV line =
      match getline line ',' with
      | none => []
      | some (token, rest) => trim token :: splitCSV rest := by
  cases line with
  | nil => simp [splitCSV, splitLoop, getline]
  | cons c s =>
    unfold splitCSV
    rw [splitLoop_step [] (c :: s) (by simp)]
    simp [getline]

/-! ## Trimming -/

theorem isspace_ne_comma {c : Char} (h : isspace c = true) : c ≠ ',' := by
  intro hc
  subst hc
  revert h
  decide

theorem trim_nil : trim [] = [] := rfl

theorem dropWhile_append_of_all (p : Char → Bool) (ws s : List Char)
    (h : ∀ c ∈ ws, p c = true) : (ws ++ s).dropWhile p = s.dropWhile p := by
  induction ws with
  | nil => rfl
  | cons c ws ih =>
    have hc : p c = true := h c (List.mem_cons_self _ _)
    simp only [List.cons_append, List.dropWhile_cons, hc, if_true]
    exact ih (fun x hx => h x (List.mem_cons_of_mem _ hx))

theorem trim_ws_append (ws s : List Char) (h : ∀ c ∈ ws, isspace c = true) :
    trim (ws ++ s) = trim s := by
  unfold trim ltrim
  rw [dropWhile_append_of_all isspace ws s h]

theorem rtrim_append_ws (s ws : List Char) (h : ∀ c ∈ ws, isspace c = true) :
    rtrim (s ++ ws) = rtrim s := by
  unfold rtrim
  rw [List.reverse_append, dropWhile_append_of_all isspace ws.reverse s.reverse]
  intro c hc
  exact h c (List.mem_reverse.mp hc)

theorem ltrim_append_ws (s ws : List Char) (h : ∀ c ∈ ws, isspace c = true) :
    ltrim (s ++ ws) = ltrim s ++ ws ∨ (ltrim s = [] ∧ ltrim (s ++ ws) = []) := by
  induction s with
  | nil =>
    right
    refine ⟨rfl, ?_⟩
    have h0 := dropWhile_append_of_all isspace ws [] h
    simpa [ltrim] using h0
  | cons c s ih =>
    by_cases hc : isspace c = true
    · simpa [ltrim, hc] using ih
    · left
      simp [ltrim, hc]

theorem trim_append_ws (s ws : List Char) (h : ∀ c ∈ ws, isspace c = true) :
    trim (s ++ ws) = trim s := by
  unfold trim
  rcases ltrim_append_ws s ws h with h1 | ⟨h1, h2⟩
  · rw [h1, rtrim_append_ws _ _ h]
  · rw [h1, h2]

/-- A line is its trimmed form between two runs of whitespace. -/
theorem trim_decomp (raw : List Char) :
    ∃ ws1 ws2 : List Char, (∀ c ∈ ws1, isspace c = true) ∧ (∀ c ∈ ws2, isspace c = true) ∧
      raw = ws1 ++ (trim raw ++ ws2) := by
  refine ⟨raw.takeWhile isspace, ((ltrim raw).reverse.takeWhile isspace).reverse, ?_, ?_, ?_⟩
  · intro c hc
    exact (List.mem_takeWhile_imp hc)
  · intro c hc
    exact (List.mem_takeWhile_imp (List.mem_reverse.mp hc))
  · have h1 : trim raw ++ ((ltrim raw).reverse.takeWhile isspace).reverse = ltrim raw := by
      unfold trim rtrim
      rw [← List.reverse_append, List.takeWhile_append_dropWhile, List.reverse_reverse]
    rw [h1]
    unfold ltrim
    exact (List.takeWhile_append_dropWhile isspace raw).symm

/-! ## Fields of a line and of its trimmed form -/

/-- Appends `ws` to the last element of a list of fields. -/
def appendLast : List (List Char) → List Char → List (List Char)
  | [], _ => []
  | [x], ws => [x ++ ws]
  | x :: y :: rest, ws => x :: appendLast (y :: rest) ws

theorem specFields_ws_append (ws s : List Char) (h : ',' ∉ ws) :
    specFields (ws ++ s) = (specFields s).modifyHead (fun f => ws ++ f) := by
  induction ws with
  | nil =>
    obtain ⟨f, fs, hf⟩ := List.exists_cons_of_ne_nil (specFields_ne_nil s)
    simp [hf]
  | cons c ws ih =>
    have hc : c ≠ ',' := fun hc => h (hc ▸ List.mem_cons_self _ _)
    have hws : ',' ∉ ws := fun hh => h (List.mem_cons_of_mem _ hh)
    obtain ⟨f, fs, hf⟩ := List.exists_cons_of_ne_nil (specFields_ne_nil s)
    rw [List.cons_append, specFields_cons, if_neg hc, ih hws, hf]
    simp

theorem specFields_append_ws (s ws : List Char) (h : ',' ∉ ws) :
    specFields (s ++ ws) = appendLast (specFields s) ws := by
  induction s with
  | nil =>
    rw [List.nil_append, specFields_of_no_comma ws h, specFields_nil]
    simp [appendLast]
  | cons c s ih =>
    obtain ⟨f, fs, hf⟩ := List.exists_cons_of_ne_nil (specFields_ne_nil s)
    rw [List.cons_append, specFields_cons, specFields_cons, ih, hf]
    by_cases hc : c = ','
    · simp [hc, appendLast]
    · cases fs with
      | nil => simp [hc, appendLast]
      | cons g gs => simp [hc, appendLast]

theorem map_trim_modifyHead (ws : List Char) (l : List (List Char))
    (h : ∀ c ∈ ws, isspace c = true) :
    (l.modifyHead (fun f => ws ++ f)).map trim = l.map trim := by
  cases l with
  | nil => rfl
  | cons f fs => simp [trim_ws_append ws f h]

theorem map_trim_appendLast (ws : List Char) (l : List (List Char))
    (h : ∀ c ∈ ws, isspace c = true) :
    (appendLast l ws).map trim = l.map trim := by
  induction l with
  | nil => rfl
  | cons f fs ih =>
    cases fs with
    | nil => simp [appendLast, trim_append_ws f ws h]
    | cons g gs =>
      simp only [appendLast, List.map_cons] at ih ⊢
      rw [ih]

/-- Trimming the line first does not change the trimmed fields. -/
theorem map_trim_specFields_trim (raw : List Char) :
    (specFields (trim raw)).map trim = (specFields raw).map trim := by
  obtain ⟨ws1, ws2, h1, h2, hraw⟩ := trim_decomp raw
  have hc1 : ',' ∉ ws1 := fun hh => isspace_ne_comma (h1 _ hh) rfl
  have hc2 : ',' ∉ ws2 := fun hh => isspace_ne_comma (h2 _ hh) rfl
  conv_rhs => rw [hraw]
  rw [specFields_ws_append _ _ hc1, specFields_append_ws _ _ hc2,
    map_trim_modifyHead _ _ h1, map_trim_appendLast _ _ h2]

theorem filter_map_trim_dropLastEmpty (l : List (List Char)) :
    ((dropLastEmpty l).map trim).filter (fun col => !col.isEmpty) =
      (l.map trim).filter (fun col => !col.isEmpty) := by
  induction l with
  | nil => rfl
  | cons f fs ih =>
    cases fs with
    | nil =>
      by_cases hf : f = []
      · simp [dropLastEmpty, hf, trim_nil]
      · simp [dropLastEmpty, hf]
    | cons g gs =>
      simp only [dropLastEmpty, List.map_cons, List.filter_cons] at ih ⊢
      rw [ih]

/-- When `splitCSV` delivers at least two columns, they are the trimmed first two
fields, followed by columns with the same non-empty entries as the other
trimmed fields. -/
theorem splitCSV_two_columns (line : List Char) (h : ¬ (splitCSV line).length < 2) :
    ∃ f0 f1 rest cols, specFields line = f0 :: f1 :: rest ∧
      splitCSV line = trim f0 :: trim f1 :: cols ∧
      cols.filter (fun col => !col.isEmpty) =
        (rest.map trim).filter (fun col => !col.isEmpty) := by
  rw [splitCSV_eq] at h ⊢
  cases hF : specFields line with
  | nil => exact absurd hF (specFields_ne_nil line)
  | cons f0 tl =>
    cases tl with
    | nil =>
      rw [hF] at h
      by_cases hf : f0 = [] <;> simp [dropLastEmpty, hf] at h
    | cons f1 rest =>
      rw [hF] at h
      cases rest with
      | nil =>
        by_cases hf : f1 = []
        · simp [dropLastEmpty, hf] at h
        · exact ⟨f0, f1, [], [], rfl, by simp [dropLastEmpty, hf], rfl⟩
      | cons g gs =>
        refine ⟨f0, f1, g :: gs, (dropLastEmpty (g :: gs)).map trim, rfl, ?_, ?_⟩
        · simp [dropLastEmpty]
        · exact filter_map_trim_dropLastEmpty (g :: gs)

/-! ## One iteration of the loader -/

theorem loadLine_blank (st : LoadState) (raw : List Char) (h : (trim raw).isEmpty = true) :
    loadLine st raw = { st with lineNo := st.lineNo + 1 } := by
  unfold loadLine
  simp only [h, if_true]

theorem loadLine_malformed (st : LoadState) (raw : List Char)
    (h1 : (trim raw).isEmpty = false) (h2 : (splitCSV (trim raw)).length < 2) :
    loadLine st raw =
      { st with lineNo := st.lineNo + 1, warnings := st.warnings ++ [st.lineNo + 1] } := by
  unfold loadLine
  simp only [h1, Bool.false_eq_true, if_false]
  rw [dif_pos h2]

theorem courseOfCols_eq (cols : List (List Char)) (h : ¬ cols.length < 2)
    (number title : List Char) (rest : List (List Char)) (hc : cols = number :: title :: rest) :
    courseOfCols cols h =
      { number := number, title := title,
        prerequisites := rest.filter (fun col => !col.isEmpty) } := by
  subst hc
  rfl

theorem loadLine_accepted (st : LoadState) (raw : List Char)
    (h1 : (trim raw).isEmpty = false) (h2 : ¬ (splitCSV (trim raw)).length < 2) :
    loadLine st raw =
      { bst := st.bst.insert (courseOfCols (splitCSV (trim raw)) h2)
        lineNo := st.lineNo + 1
        loaded := st.loaded + 1
        warnings := st.warnings } := by
  unfold loadLine
  simp only [h1, Bool.false_eq_true, if_false]
  rw [dif_neg h2]

theorem length_splitLoop_of_no_comma (tok s : List Char) (h : ',' ∉ s) :
    (splitLoop tok s).length < 2 := by
  induction s generalizing tok with
  | nil => by_cases ht : tok = [] <;> simp [splitLoop, ht]
  | cons c s ih =>
    have hc : c ≠ ',' := fun hc => h (hc ▸ List.mem_cons_self _ _)
    rw [splitLoop, if_neg hc]
    exact ih _ (fun hh => h (List.mem_cons_of_mem _ hh))

theorem trim_sublist (s : List Char) : (trim s).Sublist s := by
  unfold trim rtrim ltrim
  refine List.Sublist.trans ?_ (List.dropWhile_sublist isspace)
  have h := List.dropWhile_sublist isspace (l := (List.dropWhile isspace s).reverse)
  have h2 := h.reverse
  rwa [List.reverse_reverse] at h2

/-! ## The claims about the ordered catalog -/

/-- C1: for every sequence of courses inserted into an empty catalog, the
upper-cased course numbers of the records visited by the in-order traversal are
in strictly ascending lexicographic order (every earlier key is lexicographically
below every later one). -/
theorem inorder_keys_strictly_ascending (cs : List Course) :
    List.Pairwise (List.Lex (fun x y : Char => x.toNat < y.toNat))
      ((inOrderRec (build cs).root).map (fun c => upper c.number)) := by
  have h := (wf_build cs).1
  unfold Ordered keys at h
  exact List.Pairwise.imp (fun hab => (strLt_iff_lex _ _).mp hab) h

/-- C2: in a catalog built by inserts, `find(k)` right after `insert(c)` returns
the record `c` whenever `k` and `c.number` have the same upper-casing. -/
theorem find_after_insert (cs : List Course) (c : Course) (k : List Char)
    (h : upper k = upper c.number) :
    ((build cs).insert c).find k = some c := by
  unfold CourseBST.find CourseBST.insert
  rw [h]
  exact findLoop_insertRec _ _ _

theorem find_after_insert_witness :
    upper "cs101".toList = upper "CS101".toList ∧
      ((build [⟨"CS200".toList, "Data".toList, []⟩, ⟨"Cs101".toList, "Old".toList, []⟩]).insert
        ⟨"CS101".toList, "Intro".toList, ["CS100".toList]⟩).find "cs101".toList =
        some ⟨"CS101".toList, "Intro".toList, ["CS100".toList]⟩ :=
  ⟨by decide, find_after_insert _ _ _ (by decide)⟩

/-- C3: after any sequence of inserts into an empty catalog, `size()` is the
number of distinct upper-cased course numbers of the sequence. -/
theorem size_eq_distinct_keys (cs : List Course) :
    (build cs).size = ((cs.map (fun c => upper c.number)).dedup).length := by
  have hwf := wf_build cs
  have hperm : (keys (build cs).root).Perm ((cs.map (fun c => upper c.number)).dedup) := by
    rw [List.perm_ext_iff_of_nodup (nodup_keys hwf.1) (List.nodup_dedup _)]
    intro a
    rw [mem_keys_build, List.mem_dedup]
  rw [← hperm.length_eq]
  unfold CourseBST.size
  rw [hwf.2]
  simp [keys]

/-- C4: in a catalog built by inserts, inserting a course whose upper-cased number
is already the key of an entry leaves `size()` unchanged, and afterwards the entry
of that key (there is one, and `find` returns it) carries exactly the title and
the prerequisites of the inserted course. -/
theorem reinsert_overwrites (cs : List Course) (c : Course)
    (h : upper c.number ∈ (inOrderRec (build cs).root).map (fun e => upper e.number)) :
    ((build cs).insert c).size = (build cs).size ∧
      (∃ e, ((build cs).insert c).find c.number = some e ∧
        e.title = c.title ∧ e.prerequisites = c.prerequisites) ∧
      (∃ e ∈ inOrderRec ((build cs).insert c).root, upper e.number = upper c.number) ∧
      ∀ e ∈ inOrderRec ((build cs).insert c).root, upper e.number = upper c.number →
        e.title = c.title ∧ e.prerequisites = c.prerequisites := by
  have hwf := wf_build cs
  have hwf2 := wf_insert _ c hwf
  have hself : c ∈ inOrderRec ((build cs).insert c).root :=
    self_mem_inOrderRec_insertRec _ _ _
  refine ⟨?_, ⟨c, findLoop_insertRec _ _ _, rfl, rfl⟩, ⟨c, hself, rfl⟩, ?_⟩
  · unfold CourseBST.size
    rw [hwf2.2, hwf.2]
    exact length_insertRec_of_mem _ _ _ hwf.1 h
  · intro e he hk
    have hec : e = c := eq_of_key_eq hwf2.1 he hself hk
    rw [hec]
    exact ⟨rfl, rfl⟩

theorem reinsert_overwrites_witness :
    upper "cs101".toList ∈
        (inOrderRec (build [⟨"CS101".toList, "Old".toList, ["CS050".toList]⟩]).root).map
          (fun e => upper e.number) ∧
      ((build [⟨"CS101".toList, "Old".toList, ["CS050".toList]⟩]).insert
        ⟨"cs101".toList, "New".toList, ["CS100".toList]⟩).size = 1 :=
  ⟨by decide,
   (reinsert_overwrites [⟨"CS101".toList, "Old".toList, ["CS050".toList]⟩]
      ⟨"cs101".toList, "New".toList, ["CS100".toList]⟩ (by decide)).1⟩

/-- C5: in a catalog built by inserts, two keys with the same upper-casing get
the same result from `find`: the same record, or not-found for both. -/
theorem find_case_insensitive (cs : List Course) (k1 k2 : List Char)
    (h : upper k1 = upper k2) :
    (build cs).find k1 = (build cs).find k2 := by
  unfold CourseBST.find
  rw [h]

theorem find_case_insensitive_witness :
    upper "cs101".toList = upper "CS101".toList ∧
      (build [⟨"Cs101".toList, "Intro".toList, []⟩]).find "cs101".toList =
        (build [⟨"Cs101".toList, "Intro".toList, []⟩]).find "CS101".toList :=
  ⟨by decide, find_case_insensitive _ _ _ (by decide)⟩

/-- C6: in a catalog built by inserts, `find(k)` is not-found exactly when no
inserted course number upper-cases to `upper(k)`; on the empty catalog `find` is
not-found for every key. -/
theorem find_none_iff_absent (cs : List Course) (k : List Char) :
    ((build cs).find k = none ↔ ∀ c ∈ cs, upper c.number ≠ upper k) ∧
      CourseBST.new.find k = none := by
  refine ⟨?_, rfl⟩
  unfold CourseBST.find
  rw [findLoop_eq_none_iff _ _ (wf_build cs).1, mem_keys_build, List.mem_map]
  constructor
  · intro hno c hc he
    exact hno ⟨c, hc, he⟩
  · rintro hall ⟨c, hc, he⟩
    exact hall c hc he

/-! ## The claims about the loader -/

/-- Every record of the catalog after the loop was there before it or was built
from one of the lines read. -/
theorem mem_inOrderRec_foldl_loadLine (lines : List (List Char)) (st : LoadState) (e : Course)
    (he : e ∈ inOrderRec (lines.foldl loadLine st).bst.root) :
    e ∈ inOrderRec st.bst.root ∨
      ∃ raw ∈ lines, ∃ h : ¬ (splitCSV (trim raw)).length < 2,
        (trim raw).isEmpty = false ∧ e = courseOfCols (splitCSV (trim raw)) h := by
  induction lines generalizing st with
  | nil => exact Or.inl he
  | cons raw lines ih =>
    rw [List.foldl_cons] at he
    rcases ih _ he with h | ⟨r, hr, h, hne, heq⟩
    · cases h1 : (trim raw).isEmpty with
      | true =>
        rw [loadLine_blank st raw h1] at h
        exact Or.inl h
      | false =>
        by_cases h2 : (splitCSV (trim raw)).length < 2
        · rw [loadLine_malformed st raw h1 h2] at h
          exact Or.inl h
        · rw [loadLine_accepted st raw h1 h2] at h
          rcases mem_inOrderRec_insertRec _ _ _ _ h with h | h
          · exact Or.inr ⟨raw, List.mem_cons_self _ _, h2, h1, h⟩
          · exact Or.inl h
    · exact Or.inr ⟨r, List.mem_cons_of_mem _ hr, h, hne, heq⟩

/-- C7: for a line that the loader accepts (not blank after trimming, and
`splitCSV` delivers at least 2 columns), the record inserted has as number and
title the trimmed fields 0 and 1 of the line, and as prerequisites the trimmed
fields from position 2 on that are not empty, in their order; the fields are the
comma-separated pieces of the line. The line "CS101, Intro to CS, CS100" gives
number "CS101", title "Intro to CS" and prerequisites ["CS100"]. -/
theorem accepted_line_record (st : LoadState) (raw : List Char)
    (h1 : (trim raw).isEmpty = false) (h2 : ¬ (splitCSV (trim raw)).length < 2) :
    (∃ f0 f1 rest, specFields raw = f0 :: f1 :: rest ∧
      loadLine st raw =
        { bst := st.bst.insert
            { number := trim f0, title := trim f1,
              prerequisites := (rest.map trim).filter (fun col => !col.isEmpty) }
          lineNo := st.lineNo + 1
          loaded := st.loaded + 1
          warnings := st.warnings }) ∧
      loadLine st "CS101, Intro to CS, CS100".toList =
        { bst := st.bst.insert
            { number := "CS101".toList, title := "Intro to CS".toList,
              prerequisites := ["CS100".toList] }
          lineNo := st.lineNo + 1
          loaded := st.loaded + 1
          warnings := st.warnings } := by
  constructor
  · obtain ⟨a, b, r, cols, hF, hcols, hfil⟩ := splitCSV_two_columns (trim raw) h2
    have hmap := map_trim_specFields_trim raw
    rw [hF] at hmap
    cases hG : specFields raw with
    | nil => exact absurd hG (specFields_ne_nil raw)
    | cons g0 tl =>
      cases tl with
      | nil => rw [hG] at hmap; simp at hmap
      | cons g1 gr =>
        rw [hG] at hmap
        simp only [List.map_cons, List.cons.injEq] at hmap
        obtain ⟨e0, e1, er⟩ := hmap
        refine ⟨g0, g1, gr, rfl, ?_⟩
        rw [loadLine_accepted st raw h1 h2, courseOfCols_eq _ h2 _ _ _ hcols, hfil, e0, e1, er]
  · have e1 : (trim "CS101, Intro to CS, CS100".toList).isEmpty = false := by decide
    have e2 : ¬ (splitCSV (trim "CS101, Intro to CS, CS100".toList)).length < 2 := by decide
    have e3 : splitCSV (trim "CS101, Intro to CS, CS100".toList) =
        "CS101".toList :: "Intro to CS".toList :: ["CS100".toList] := by decide
    rw [loadLine_accepted st _ e1 e2, courseOfCols_eq _ e2 _ _ _ e3]
    rfl

theorem accepted_line_record_witness :
    (trim " cs200 ,Data Structures,, CS101 ,".toList).isEmpty = false ∧
      ¬ (splitCSV (trim " cs200 ,Data Structures,, CS101 ,".toList)).length < 2 ∧
      ∃ f0 f1 rest, specFields " cs200 ,Data Structures,, CS101 ,".toList = f0 :: f1 :: rest ∧
        loadLine ⟨CourseBST.new, 0, 0, []⟩ " cs200 ,Data Structures,, CS101 ,".toList =
          { bst := CourseBST.new.insert
              { number := trim f0, title := trim f1,
                prerequisites := (rest.map trim).filter (fun col => !col.isEmpty) }
            lineNo := 1
            loaded := 1
            warnings := [] } :=
  ⟨by decide, by decide,
   (accepted_line_record ⟨CourseBST.new, 0, 0, []⟩ " cs200 ,Data Structures,, CS101 ,".toList
      (by decide) (by decide)).1⟩

/-- C8: a line that is not blank after trimming and contains no comma is
reported as malformed: the loop body emits the warning with the line's number
and neither inserts a record nor counts the line as loaded. -/
theorem line_without_comma_is_malformed (st : LoadState) (raw : List Char)
    (h1 : (trim raw).isEmpty = false) (h2 : ',' ∉ raw) :
    loadLine st raw =
        { bst := st.bst
          lineNo := st.lineNo + 1
          loaded := st.loaded
          warnings := st.warnings ++ [st.lineNo + 1] } ∧
      splitCSV (trim raw) = [trim raw] := by
  have hno : ',' ∉ trim raw := fun hh => h2 ((trim_sublist raw).subset hh)
  constructor
  · exact loadLine_malformed st raw h1 (length_splitLoop_of_no_comma [] _ hno)
  · have hne : trim raw ≠ [] := by
      intro he
      rw [he] at h1
      simp at h1
    rw [splitCSV_eq, specFields_of_no_comma _ hno]
    have hidem : trim (trim raw) = trim raw := by
      obtain ⟨ws1, ws2, hw1, hw2, hraw⟩ := trim_decomp raw
      conv_rhs => rw [hraw, trim_ws_append _ _ hw1, trim_append_ws _ _ hw2]
    simp [dropLastEmpty, hne, hidem]

theorem line_without_comma_is_malformed_witness :
    (trim "CS101".toList).isEmpty = false ∧ ',' ∉ "CS101".toList ∧
      loadLine ⟨CourseBST.new, 4, 2, [3]⟩ "CS101".toList =
        ⟨CourseBST.new, 5, 2, [3, 5]⟩ :=
  ⟨by decide, by decide,
   (line_without_comma_is_malformed ⟨CourseBST.new, 4, 2, [3]⟩ "CS101".toList
      (by decide) (by decide)).1⟩

/-- C9: when the source cannot be opened, `loadCoursesFromCSV` reports the error,
returns 0 and leaves the catalog as it was: same `size()`, same in-order
enumeration, same result of `find` for every key. -/
theorem load_unopenable_keeps_catalog (bst : CourseBST) :
    (loadCoursesFromCSV none bst).returned = 0 ∧
      (loadCoursesFromCSV none bst).openError = true ∧
      (loadCoursesFromCSV none bst).bst = bst ∧
      (loadCoursesFromCSV none bst).bst.size = bst.size ∧
      inOrderRec (loadCoursesFromCSV none bst).bst.root = inOrderRec bst.root ∧
      ∀ k, (loadCoursesFromCSV none bst).bst.find k = bst.find k :=
  ⟨rfl, rfl, rfl, rfl, rfl, fun _ => rfl⟩

/-- C10: for an openable source, the outcome of `loadCoursesFromCSV` (catalog,
returned count, warnings) does not depend on the prior catalog: it is the
outcome of loading the same lines into an empty catalog, and every record of the
resulting catalog was built from a line of the source. -/
theorem load_replaces_catalog (lines : List (List Char)) (b1 b2 : CourseBST) :
    loadCoursesFromCSV (some lines) b1 = loadCoursesFromCSV (some lines) b2 ∧
      loadCoursesFromCSV (some lines) b1 = loadCoursesFromCSV (some lines) CourseBST.new ∧
      ∀ e ∈ inOrderRec (loadCoursesFromCSV (some lines) b1).bst.root,
        ∃ raw ∈ lines, ∃ h : ¬ (splitCSV (trim raw)).length < 2,
          (trim raw).isEmpty = false ∧ e = courseOfCols (splitCSV (trim raw)) h := by
  refine ⟨rfl, rfl, ?_⟩
  intro e he
  rcases mem_inOrderRec_foldl_loadLine lines _ e he with h | h
  · simp [CourseBST.clear, inOrderRec] at h
  · exact h

/-! ## The whole loop of the loader -/

/-- The record that the loop body inserts for a line, `none` when the line is
skipped (blank, or fewer than 2 columns). -/
def recordOf (raw : List Char) : Option Course :=
  if (trim raw).isEmpty then none
  else if h : (splitCSV (trim raw)).length < 2 then none
  else some (courseOfCols (splitCSV (trim raw)) h)

/-- The loop body takes the branch that inserts a record and counts the line. -/
def isValidLine (raw : List Char) : Bool :=
  !(trim raw).isEmpty && decide (¬ (splitCSV (trim raw)).length < 2)

/-- The loop body takes the branch that writes the warning. -/
def isMalformedLine (raw : List Char) : Bool :=
  !(trim raw).isEmpty && decide ((splitCSV (trim raw)).length < 2)

/-- Where a line takes the loop body: the state after it, in terms of
`recordOf`, `isValidLine` and `isMalformedLine`. -/
theorem loadLine_cases (st : LoadState) (raw : List Char) :
    ((trim raw).isEmpty = true ∧ recordOf raw = none ∧ isValidLine raw = false ∧
        isMalformedLine raw = false ∧
        loadLine st raw = { st with lineNo := st.lineNo + 1 }) ∨
      ((trim raw).isEmpty = false ∧ recordOf raw = none ∧ isValidLine raw = false ∧
        isMalformedLine raw = true ∧
        loadLine st raw =
          { st with lineNo := st.lineNo + 1, warnings := st.warnings ++ [st.lineNo + 1] }) ∨
      (∃ c, (trim raw).isEmpty = false ∧ recordOf raw = some c ∧ isValidLine raw = true ∧
        isMalformedLine raw = false ∧
        loadLine st raw =
          { bst := st.bst.insert c
            lineNo := st.lineNo + 1
            loaded := st.loaded + 1
            warnings := st.warnings }) := by
  cases h1 : (trim raw).isEmpty with
  | true =>
    left
    exact ⟨rfl, by simp [recordOf, h1], by simp [isValidLine, h1],
      by simp [isMalformedLine, h1], loadLine_blank st raw h1⟩
  | false =>
    right
    by_cases h2 : (splitCSV (trim raw)).length < 2
    · left
      exact ⟨rfl, by simp [recordOf, h1, h2], by simp [isValidLine, h1, h2],
        by simp [isMalformedLine, h1, h2], loadLine_malformed st raw h1 h2⟩
    · right
      exact ⟨courseOfCols (splitCSV (trim raw)) h2, rfl, by simp [recordOf, h1, h2],
        by simp [isValidLine, h1, h2], by simp [isMalformedLine, h1, h2],
        loadLine_accepted st raw h1 h2⟩

theorem foldl_loadLine_bst (lines : List (List Char)) (st : LoadState) :
    (lines.foldl loadLine st).bst =
      (lines.filterMap recordOf).foldl CourseBST.insert st.bst := by
  induction lines generalizing st with
  | nil => rfl
  | cons raw lines ih =>
    rw [List.foldl_cons, ih]
    rcases loadLine_cases st raw with ⟨_, hr, _, _, hl⟩ | ⟨_, hr, _, _, hl⟩ | ⟨c, _, hr, _, _, hl⟩
    · rw [List.filterMap_cons, hr, hl]
    · rw [List.filterMap_cons, hr, hl]
    · rw [List.filterMap_cons, hr, hl]
      rfl

theorem foldl_loadLine_loaded (lines : List (List Char)) (st : LoadState) :
    (lines.foldl loadLine st).loaded = st.loaded + (lines.filter isValidLine).length := by
  induction lines generalizing st with
  | nil => rfl
  | cons raw lines ih =>
    rw [List.foldl_cons, ih]
    rcases loadLine_cases st raw with ⟨_, _, hv, _, hl⟩ | ⟨_, _, hv, _, hl⟩ | ⟨c, _, _, hv, _, hl⟩
    · rw [List.filter_cons, hv, hl]; simp
    · rw [List.filter_cons, hv, hl]; simp
    · rw [List.filter_cons, hv, hl]; simp; omega

theorem foldl_loadLine_lineNo (lines : List (List Char)) (st : LoadState) :
    (lines.foldl loadLine st).lineNo = st.lineNo + lines.length := by
  induction lines generalizing st with
  | nil => rfl
  | cons raw lines ih =>
    rw [List.foldl_cons, ih]
    rcases loadLine_cases st raw with ⟨_, _, _, _, hl⟩ | ⟨_, _, _, _, hl⟩ | ⟨c, _, _, _, _, hl⟩ <;>
      · rw [hl]; simp; omega

theorem foldl_loadLine_warnings (lines : List (List Char)) (st : LoadState) :
    (lines.foldl loadLine st).warnings =
      st.warnings ++
        ((lines.enumFrom st.lineNo).filter (fun p => isMalformedLine p.2)).map
          (fun p => p.1 + 1) := by
  induction lines generalizing st with
  | nil => simp
  | cons raw lines ih =>
    rw [List.foldl_cons, ih, List.enumFrom_cons, List.filter_cons]
    rcases loadLine_cases st raw with ⟨_, _, _, hm, hl⟩ | ⟨_, _, _, hm, hl⟩ | ⟨c, _, _, _, hm, hl⟩
    · simp [hm, hl]
    · simp [hm, hl]
    · simp [hm, hl]

theorem loadCoursesFromCSV_bst (lines : List (List Char)) (bst : CourseBST) :
    (loadCoursesFromCSV (some lines) bst).bst = build (lines.filterMap recordOf) := by
  unfold loadCoursesFromCSV build
  simp only [foldl_loadLine_bst]
  rfl

theorem trim_eq_nil_iff (s : List Char) : trim s = [] ↔ ∀ c ∈ s, isspace c = true := by
  constructor
  · intro h
    obtain ⟨ws1, ws2, h1, h2, hs⟩ := trim_decomp s
    rw [h, List.nil_append] at hs
    intro c hc
    rw [hs, List.mem_append] at hc
    rcases hc with hc | hc
    · exact h1 c hc
    · exact h2 c hc
  · intro h
    have h0 := trim_ws_append s [] h
    rwa [List.append_nil, trim_nil] at h0

theorem length_filterMap_recordOf (lines : List (List Char)) :
    (lines.filterMap recordOf).length = (lines.filter isValidLine).length := by
  induction lines with
  | nil => rfl
  | cons raw lines ih =>
    rcases loadLine_cases ⟨CourseBST.new, 0, 0, []⟩ raw with
      ⟨_, hr, hv, _, _⟩ | ⟨_, hr, hv, _, _⟩ | ⟨c, _, hr, hv, _, _⟩
    · rw [List.filterMap_cons, List.filter_cons, hr, hv]; simpa using ih
    · rw [List.filterMap_cons, List.filter_cons, hr, hv]; simpa using ih
    · rw [List.filterMap_cons, List.filter_cons, hr, hv]; simpa using ih

theorem loadCoursesFromCSV_returned (lines : List (List Char)) (bst : CourseBST) :
    (loadCoursesFromCSV (some lines) bst).returned = (lines.filter isValidLine).length := by
  unfold loadCoursesFromCSV
  simp only [foldl_loadLine_loaded]
  omega

theorem loadCoursesFromCSV_warnings (lines : List (List Char)) (bst : CourseBST) :
    (loadCoursesFromCSV (some lines) bst).warnings =
      (lines.enum.filter (fun p => isMalformedLine p.2)).map (fun p => p.1 + 1) := by
  unfold loadCoursesFromCSV
  simp only [foldl_loadLine_warnings]
  rfl

theorem length_filter_enum_malformed (lines : List (List Char)) (n : Nat) :
    ((lines.enumFrom n).filter (fun p => isMalformedLine p.2)).length =
      (lines.filter isMalformedLine).length := by
  induction lines generalizing n with
  | nil => rfl
  | cons raw lines ih =>
    rw [List.enumFrom_cons, List.filter_cons, List.filter_cons]
    cases hm : isMalformedLine raw with
    | true => simp [ih]
    | false => simp [ih]

/-! ## The claims about the whole load -/

/-- C12, as the code has it: after a load the returned count is the number of
valid lines, the number of warnings is the number of malformed lines, and
`size()` is the number of distinct upper-cased course numbers among the valid
lines; so `size()` is at most the returned count, and equals it exactly when
the valid lines carry pairwise distinct upper-cased numbers. Five such valid
lines and two malformed ones give 5 loaded, 2 warnings and `size() == 5`. -/
theorem load_size_and_warnings (lines : List (List Char)) (bst : CourseBST) :
    (loadCoursesFromCSV (some lines) bst).returned = (lines.filter isValidLine).length ∧
      (loadCoursesFromCSV (some lines) bst).warnings.length =
        (lines.filter isMalformedLine).length ∧
      (loadCoursesFromCSV (some lines) bst).bst.size =
        (((lines.filterMap recordOf).map (fun c => upper c.number)).dedup).length ∧
      (loadCoursesFromCSV (some lines) bst).bst.size ≤
        (loadCoursesFromCSV (some lines) bst).returned ∧
      ((loadCoursesFromCSV (some lines) bst).bst.size =
          (loadCoursesFromCSV (some lines) bst).returned ↔
        ((lines.filterMap recordOf).map (fun c => upper c.number)).Nodup) ∧
      ((loadCoursesFromCSV (some
          ["CS100,Intro".toList, "CS200,Data,CS100".toList, "bad".toList,
           "CS300,Algo,CS200".toList, "MATH201,Discrete".toList, "oops".toList,
           "CS400,Systems,CS300,CS200".toList]) bst).returned = 5 ∧
        (loadCoursesFromCSV (some
          ["CS100,Intro".toList, "CS200,Data,CS100".toList, "bad".toList,
           "CS300,Algo,CS200".toList, "MATH201,Discrete".toList, "oops".toList,
           "CS400,Systems,CS300,CS200".toList]) bst).warnings.length = 2 ∧
        (loadCoursesFromCSV (some
          ["CS100,Intro".toList, "CS200,Data,CS100".toList, "bad".toList,
           "CS300,Algo,CS200".toList, "MATH201,Discrete".toList, "oops".toList,
           "CS400,Systems,CS300,CS200".toList]) bst).bst.size = 5) := by
  have hsize : (loadCoursesFromCSV (some lines) bst).bst.size =
      (((lines.filterMap recordOf).map (fun c => upper c.number)).dedup).length := by
    rw [loadCoursesFromCSV_bst]
    have hwf := wf_build (lines.filterMap recordOf)
    have hperm : (keys (build (lines.filterMap recordOf)).root).Perm
        (((lines.filterMap recordOf).map (fun c => upper c.number)).dedup) := by
      rw [List.perm_ext_iff_of_nodup (nodup_keys hwf.1) (List.nodup_dedup _)]
      intro a
      rw [mem_keys_build, List.mem_dedup]
    rw [← hperm.length_eq]
    unfold CourseBST.size
    rw [hwf.2]
    simp [keys]
  have hret := loadCoursesFromCSV_returned lines bst
  have hlen : ((lines.filterMap recordOf).map (fun c => upper c.number)).length =
      (lines.filter isValidLine).length := by
    rw [List.length_map, length_filterMap_recordOf]
  have hsub := List.dedup_sublist ((lines.filterMap recordOf).map (fun c => upper c.number))
  refine ⟨hret, ?_, hsize, ?_, ?_, ?_⟩
  · rw [loadCoursesFromCSV_warnings, List.length_map]
    exact length_filter_enum_malformed lines 0
  · rw [hsize, hret, ← hlen]
    exact hsub.length_le
  · rw [hsize, hret, ← hlen]
    constructor
    · intro h
      have he := hsub.eq_of_length h
      exact List.dedup_eq_self.mp he
    · intro h
      rw [List.dedup_eq_self.mpr h]
  · have hnew : ∀ ls, loadCoursesFromCSV (some ls) bst =
        loadCoursesFromCSV (some ls) CourseBST.new := fun _ => rfl
    rw [hnew]
    decide

/-- C12 as stated fails: two valid lines with the same course number up to
letter case are both counted as loaded, but they share one entry. -/
theorem size_differs_from_returned :
    (loadCoursesFromCSV (some ["CS101,Intro".toList, "cs101,Again".toList])
        CourseBST.new).returned = 2 ∧
      (loadCoursesFromCSV (some ["CS101,Intro".toList, "cs101,Again".toList])
        CourseBST.new).bst.size = 1 ∧
      ¬ ((loadCoursesFromCSV (some ["CS101,Intro".toList, "cs101,Again".toList])
          CourseBST.new).bst.size =
        (loadCoursesFromCSV (some ["CS101,Intro".toList, "cs101,Again".toList])
          CourseBST.new).returned) := by
  decide

/-- C13: the warnings of a load are, in order, the 1-based positions of the
malformed lines among all lines of the source, blank and malformed lines
counted: a number is reported exactly when the line at that position is
malformed. -/
theorem warnings_carry_line_numbers (lines : List (List Char)) (bst : CourseBST) :
    (loadCoursesFromCSV (some lines) bst).warnings =
        (lines.enum.filter (fun p => isMalformedLine p.2)).map (fun p => p.1 + 1) ∧
      ∀ n, n ∈ (loadCoursesFromCSV (some lines) bst).warnings ↔
        ∃ i, ∃ h : i < lines.length,
          isMalformedLine (lines.get ⟨i, h⟩) = true ∧ n = i + 1 := by
  refine ⟨loadCoursesFromCSV_warnings lines bst, ?_⟩
  intro n
  rw [loadCoursesFromCSV_warnings, List.mem_map]
  constructor
  · rintro ⟨⟨i, raw⟩, hp, hn⟩
    rw [List.mem_filter, List.mk_mem_enum_iff_getElem?] at hp
    obtain ⟨hget, hm⟩ := hp
    obtain ⟨h, heq⟩ := List.getElem?_eq_some_iff.mp hget
    refine ⟨i, h, ?_, hn.symm⟩
    simp only [List.get_eq_getElem, heq]
    exact hm
  · rintro ⟨i, h, hm, hn⟩
    refine ⟨(i, lines.get ⟨i, h⟩), ?_, hn.symm⟩
    rw [List.mem_filter, List.mk_mem_enum_iff_getElem?]
    exact ⟨by simp, hm⟩

/-- C14: after `clear()` the in-order enumeration is empty, `size()` is 0 and
`find` is not-found for every key, whatever the catalog held. -/
theorem clear_empties_catalog (t : CourseBST) :
    inOrderRec t.clear.root = [] ∧ t.clear.size = 0 ∧ ∀ k, t.clear.find k = none :=
  ⟨rfl, rfl, fun _ => rfl⟩

/-- C16: a line that is empty or made of whitespace characters only is skipped
silently: the loop body builds no record, writes no warning, and leaves the
loaded count and the catalog, hence its size, as they were; only the line
counter advances. -/
theorem blank_line_is_skipped (st : LoadState) (raw : List Char)
    (h : ∀ c ∈ raw, isspace c = true) :
    recordOf raw = none ∧
      loadLine st raw =
        { bst := st.bst, lineNo := st.lineNo + 1, loaded := st.loaded,
          warnings := st.warnings } ∧
      (loadLine st raw).warnings = st.warnings ∧
      (loadLine st raw).loaded = st.loaded ∧
      (loadLine st raw).bst.size = st.bst.size := by
  have ht : (trim raw).isEmpty = true := by
    rw [(trim_eq_nil_iff raw).mpr h]
    rfl
  have hl := loadLine_blank st raw ht
  refine ⟨by simp [recordOf, ht], hl, ?_, ?_, ?_⟩ <;> rw [hl]

theorem blank_line_is_skipped_witness :
    (∀ c ∈ [' ', Char.ofNat 9, ' '], isspace c = true) ∧
      loadLine ⟨CourseBST.new, 6, 3, [2]⟩ [' ', Char.ofNat 9, ' '] =
        ⟨CourseBST.new, 7, 3, [2]⟩ :=
  ⟨by decide, (blank_line_is_skipped ⟨CourseBST.new, 6, 3, [2]⟩ [' ', Char.ofNat 9, ' ']
    (by decide)).2.1⟩

/-! ## The catalog as a last-write-wins map -/

/-- Spec: one insert into the catalog seen as a mapping from normalized key to
record: the upper-cased number of the course is bound to the course, replacing
an earlier binding of that key. -/
def specInsert (m : List Char → Option Course) (c : Course) : List Char → Option Course :=
  fun k => if k = upper c.number then some c else m k

/-- Spec: the mapping obtained from the empty one by the inserts of `cs`. -/
def specCatalog (cs : List Course) : List Char → Option Course :=
  cs.foldl specInsert (fun _ => none)

/-- An insert does not change what the search loop finds for another key. -/
theorem findLoop_insertRec_of_ne (cnt : Nat) (n : Node) (c : Course) (k : List Char)
    (h : k ≠ upper c.number) :
    findLoop k (insertRec cnt n c).1 = findLoop k n := by
  induction n with
  | null => simp [insertRec, findLoop, h]
  | mk course l r ihl ihr =>
    unfold insertRec
    cases h1 : strLt (upper c.number) (upper course.number) with
    | true =>
      simp only [h1, if_true, findLoop, ihl]
    | false =>
      cases h2 : strLt (upper course.number) (upper c.number) with
      | true =>
        simp only [h1, h2, Bool.false_eq_true, if_true, if_false, findLoop, ihr]
      | false =>
        have he : upper c.number = upper course.number := strLt_total h1 h2
        simp only [h1, h2, Bool.false_eq_true, if_false, findLoop]
        rw [he]
        rw [he] at h
        simp only [h, if_false]

theorem filter_key_eq_nil (l : List Course) (k : List Char)
    (h : k ∉ l.map (fun c => upper c.number)) :
    l.filter (fun e => decide (upper e.number = k)) = [] := by
  rw [List.filter_eq_nil_iff]
  intro a ha hk
  exact h (List.mem_map.mpr ⟨a, ha, by simpa using hk⟩)

/-- In an ordered tree the visited records of key `k` are what the search loop
finds for `k`. -/
theorem filter_key_eq_findLoop (k : List Char) (n : Node) (h : Ordered n) :
    (inOrderRec n).filter (fun e => decide (upper e.number = k)) = (findLoop k n).toList := by
  induction n with
  | null => rfl
  | mk course l r ihl ihr =>
    obtain ⟨hl, hr, hlt, hgt⟩ := (ordered_mk course l r).mp h
    have hkl : strLt k (upper course.number) = false → k ∉ keys l := by
      intro hf hk
      have h3 := hlt k hk
      rw [hf] at h3
      exact absurd h3 (by simp)
    have hkr : strLt (upper course.number) k = false → k ∉ keys r := by
      intro hf hk
      have h3 := hgt k hk
      rw [hf] at h3
      exact absurd h3 (by simp)
    unfold findLoop
    simp only [inOrderRec, List.filter_append, List.filter_cons]
    by_cases h0 : k = upper course.number
    · subst h0
      rw [filter_key_eq_nil _ _ (hkl (strLt_irrefl _)), filter_key_eq_nil _ _ (hkr (strLt_irrefl _))]
      simp
    · have h0' : ¬ upper course.number = k := fun he => h0 he.symm
      cases h1 : strLt k (upper course.number) with
      | true =>
        rw [filter_key_eq_nil _ _ (hkr (strLt_asymm h1)), ihl hl]
        simp [h0, h0']
      | false =>
        rw [filter_key_eq_nil _ _ (hkl h1), ihr hr]
        simp [h0, h0']

theorem findLoop_foldl_insert (cs : List Course) (t : CourseBST)
    (m : List Char → Option Course) (h : ∀ k, findLoop k t.root = m k) (k : List Char) :
    findLoop k (cs.foldl CourseBST.insert t).root = (cs.foldl specInsert m) k := by
  induction cs generalizing t m with
  | nil => exact h k
  | cons c cs ih =>
    rw [List.foldl_cons, List.foldl_cons]
    apply ih
    intro k'
    unfold specInsert CourseBST.insert
    by_cases hk : k' = upper c.number
    · rw [if_pos hk, hk]
      exact findLoop_insertRec _ _ _
    · rw [if_neg hk, ← h k']
      exact findLoop_insertRec_of_ne _ _ _ _ hk

theorem findLoop_build (cs : List Course) (k : List Char) :
    findLoop k (build cs).root = specCatalog cs k :=
  findLoop_foldl_insert cs CourseBST.new (fun _ => none) (fun _ => rfl) k

/-- The last-write-wins map holds, for a key, the last course of the sequence
with that key. -/
theorem foldl_specInsert_eq_find (cs : List Course) (m : List Char → Option Course)
    (k : List Char) :
    (cs.foldl specInsert m) k =
      (cs.reverse.find? (fun c => decide (upper c.number = k))).or (m k) := by
  induction cs generalizing m with
  | nil => rfl
  | cons c cs ih =>
    rw [List.foldl_cons, ih, List.reverse_cons, List.find?_append]
    unfold specInsert
    by_cases hk : k = upper c.number
    · subst hk
      cases List.find? (fun c_1 => decide (upper c_1.number = upper c.number)) cs.reverse <;> simp
    · have hk' : ¬ upper c.number = k := fun he => hk he.symm
      cases List.find? (fun c => decide (upper c.number = k)) cs.reverse <;> simp [hk, hk']

theorem specCatalog_eq_find (cs : List Course) (k : List Char) :
    specCatalog cs k = cs.reverse.find? (fun c => decide (upper c.number = k)) := by
  unfold specCatalog
  rw [foldl_specInsert_eq_find]
  cases List.find? (fun c => decide (upper c.number = k)) cs.reverse <;> rfl

theorem find_key_of_mem_nodup (l : List Course) (e : Course) (he : e ∈ l)
    (hd : (l.map (fun c => upper c.number)).Nodup) :
    l.find? (fun c => decide (upper c.number = upper e.number)) = some e := by
  induction l with
  | nil => simp at he
  | cons a l ih =>
    rw [List.map_cons, List.nodup_cons] at hd
    rcases List.mem_cons.mp he with h | h
    · subst h
      simp
    · have hne : ¬ upper a.number = upper e.number := by
        intro heq
        exact hd.1 (List.mem_map.mpr ⟨e, h, heq.symm⟩)
      rw [List.find?_cons_of_neg _ (by simpa using hne)]
      exact ih h hd.2

/-- In a catalog built from courses with pairwise distinct keys, the visited
records are exactly the courses inserted. -/
theorem mem_inOrderRec_build_of_nodup (cs : List Course)
    (hd : (cs.map (fun c => upper c.number)).Nodup) (e : Course) :
    e ∈ inOrderRec (build cs).root ↔ e ∈ cs := by
  have hfil := filter_key_eq_findLoop (upper e.number) (build cs).root (wf_build cs).1
  rw [findLoop_build, specCatalog_eq_find] at hfil
  constructor
  · intro he
    have hin : e ∈ (inOrderRec (build cs).root).filter
        (fun x => decide (upper x.number = upper e.number)) :=
      List.mem_filter.mpr ⟨he, by simp⟩
    rw [hfil] at hin
    have hsome : cs.reverse.find? (fun c => decide (upper c.number = upper e.number)) = some e := by
      simpa using hin
    exact List.mem_reverse.mp (List.mem_of_find?_eq_some hsome)
  · intro he
    have hd' : (cs.reverse.map (fun c => upper c.number)).Nodup := by
      rw [List.map_reverse]
      exact List.nodup_reverse.mpr hd
    rw [find_key_of_mem_nodup cs.reverse e (List.mem_reverse.mpr he) hd'] at hfil
    have hin : e ∈ (inOrderRec (build cs).root).filter
        (fun x => decide (upper x.number = upper e.number)) := by
      rw [hfil]; simp
    exact (List.mem_filter.mp hin).1

theorem sorted_inOrderRec {n : Node} (h : Ordered n) :
    (inOrderRec n).Pairwise (fun a b => strLt (upper a.number) (upper b.number) = true) := by
  unfold Ordered keys at h
  exact List.pairwise_map.mp h

/-- Two ordered trees with the same records are visited in the same order. -/
theorem inOrderRec_eq_of_mem_iff {n1 n2 : Node} (h1 : Ordered n1) (h2 : Ordered n2)
    (hm : ∀ e, e ∈ inOrderRec n1 ↔ e ∈ inOrderRec n2) :
    inOrderRec n1 = inOrderRec n2 := by
  have hanti : IsAntisymm Course
      (fun a b => strLt (upper a.number) (upper b.number) = true) :=
    ⟨fun a b hab hba => by
      have h3 := strLt_asymm hab
      rw [hba] at h3
      exact absurd h3 (by simp)⟩
  have hnd : ∀ {n : Node}, Ordered n → (inOrderRec n).Nodup := by
    intro n hn
    refine List.Pairwise.imp ?_ (sorted_inOrderRec hn)
    intro a b hab he
    rw [he, strLt_irrefl] at hab
    exact absurd hab (by simp)
  have hperm : (inOrderRec n1).Perm (inOrderRec n2) :=
    (List.perm_ext_iff_of_nodup (hnd h1) (hnd h2)).mpr hm
  exact List.eq_of_perm_of_sorted hperm (sorted_inOrderRec h1) (sorted_inOrderRec h2)

/-! ## The claims about the catalog as a map -/

/-- C17: the catalog refines the last-write-wins map keyed by upper-cased
number: after any sequence of inserts into an empty catalog, the records of the
in-order enumeration that carry a given key are exactly the binding of that key
in the map, that is, the last course of the sequence with that key, whole,
and nothing when no course has it; `find` returns the same binding. -/
theorem catalog_refines_last_write_wins (cs : List Course) :
    (∀ k, (inOrderRec (build cs).root).filter (fun e => decide (upper e.number = k)) =
        (specCatalog cs k).toList) ∧
      (∀ k, specCatalog cs k = cs.reverse.find? (fun c => decide (upper c.number = k))) ∧
      (∀ key, (build cs).find key = specCatalog cs (upper key)) := by
  refine ⟨?_, specCatalog_eq_find cs, ?_⟩
  · intro k
    rw [filter_key_eq_findLoop k _ (wf_build cs).1, findLoop_build]
  · intro key
    exact findLoop_build cs (upper key)

/-- C18: for courses with pairwise distinct upper-cased numbers, inserting the
list or any permutation of it into an empty catalog gives the same in-order
enumeration and the same `size()`. -/
theorem insertion_order_irrelevant (cs cs' : List Course)
    (hd : (cs.map (fun c => upper c.number)).Nodup) (hp : cs.Perm cs') :
    inOrderRec (build cs).root = inOrderRec (build cs').root ∧
      (build cs).size = (build cs').size := by
  have hd' : (cs'.map (fun c => upper c.number)).Nodup :=
    (hp.map (fun c => upper c.number)).nodup_iff.mp hd
  have heq : inOrderRec (build cs).root = inOrderRec (build cs').root := by
    apply inOrderRec_eq_of_mem_iff (wf_build cs).1 (wf_build cs').1
    intro e
    rw [mem_inOrderRec_build_of_nodup cs hd, mem_inOrderRec_build_of_nodup cs' hd']
    exact hp.mem_iff
  refine ⟨heq, ?_⟩
  unfold CourseBST.size
  rw [(wf_build cs).2, (wf_build cs').2, heq]

theorem insertion_order_irrelevant_witness :
    ((([⟨"CS300".toList, "Algo".toList, []⟩, ⟨"cs100".toList, "Intro".toList, []⟩,
          ⟨"CS200".toList, "Data".toList, ["CS100".toList]⟩] : List Course).map
        (fun c => upper c.number)).Nodup) ∧
      List.Perm
        [⟨"CS300".toList, "Algo".toList, []⟩, ⟨"cs100".toList, "Intro".toList, []⟩,
          (⟨"CS200".toList, "Data".toList, ["CS100".toList]⟩ : Course)]
        [⟨"cs100".toList, "Intro".toList, []⟩, ⟨"CS300".toList, "Algo".toList, []⟩,
          ⟨"CS200".toList, "Data".toList, ["CS100".toList]⟩] ∧
      inOrderRec (build [⟨"CS300".toList, "Algo".toList, []⟩, ⟨"cs100".toList, "Intro".toList, []⟩,
          ⟨"CS200".toList, "Data".toList, ["CS100".toList]⟩]).root =
        inOrderRec (build [⟨"cs100".toList, "Intro".toList, []⟩,
          ⟨"CS300".toList, "Algo".toList, []⟩,
          ⟨"CS200".toList, "Data".toList, ["CS100".toList]⟩]).root ∧
      (build [⟨"CS300".toList, "Algo".toList, []⟩, ⟨"cs100".toList, "Intro".toList, []⟩,
          ⟨"CS200".toList, "Data".toList, ["CS100".toList]⟩]).root ≠
        (build [⟨"cs100".toList, "Intro".toList, []⟩,
          ⟨"CS300".toList, "Algo".toList, []⟩,
          ⟨"CS200".toList, "Data".toList, ["CS100".toList]⟩]).root :=
  ⟨by decide, List.Perm.swap _ _ _,
   (insertion_order_irrelevant _ _ (by decide) (List.Perm.swap _ _ _)).1,
   by decide⟩

/-- C20: in a catalog built by inserts, `insert(c)` does not change the result of
`find(k)` for a key `k` whose upper-casing differs from that of `c.number`. -/
theorem insert_keeps_other_keys (cs : List Course) (c : Course) (k : List Char)
    (h : upper k ≠ upper c.number) :
    ((build cs).insert c).find k = (build cs).find k := by
  unfold CourseBST.find CourseBST.insert
  exact findLoop_insertRec_of_ne _ _ _ _ h

theorem insert_keeps_other_keys_witness :
    upper "cs200".toList ≠ upper "CS101".toList ∧
      ((build [⟨"CS200".toList, "Data".toList, []⟩]).insert
          ⟨"CS101".toList, "Intro".toList, []⟩).find "cs200".toList =
        some ⟨"CS200".toList, "Data".toList, []⟩ :=
  ⟨by decide,
   (insert_keeps_other_keys [⟨"CS200".toList, "Data".toList, []⟩]
      ⟨"CS101".toList, "Intro".toList, []⟩ "cs200".toList (by decide)).trans (by decide)⟩

/-! ## The columns of a trimmed line -/

theorem specFields_singleton {s f : List Char} (h : specFields s = [f]) : f = s := by
  have h0 := List.intercalate_splitOn s ','
  unfold specFields at h
  rw [h] at h0
  simpa [List.intercalate] using h0

theorem not_comma_mem_specFields (s : List Char) : ∀ f ∈ specFields s, ',' ∉ f := by
  induction s with
  | nil => simp [specFields_nil]
  | cons c s ih =>
    obtain ⟨g, gs, hg⟩ := List.exists_cons_of_ne_nil (specFields_ne_nil s)
    rw [hg] at ih
    rw [specFields_cons, hg]
    by_cases hc : c = ','
    · rw [if_pos hc]
      intro f hf
      rcases List.mem_cons.mp hf with h | h
      · rw [h]; simp
      · exact ih f h
    · rw [if_neg hc]
      intro f hf
      simp only [List.modifyHead_cons, List.mem_cons] at hf
      rcases hf with h | h
      · rw [h]
        intro hm
        rcases List.mem_cons.mp hm with h2 | h2
        · exact hc h2.symm
        · exact ih g (List.mem_cons_self _ _) h2
      · exact ih f (List.mem_cons_of_mem _ h)

/-- The last character of a trimmed line is not a whitespace character. -/
theorem getLast_trim (raw : List Char) (c : Char) (h : (trim raw).getLast? = some c) :
    isspace c = false := by
  unfold trim rtrim at h
  rw [List.getLast?_reverse] at h
  have h0 := List.head?_dropWhile_not isspace (ltrim raw).reverse
  rw [h] at h0
  simpa using h0

theorem trim_ne_nil_of_getLast {t : List Char}
    (hP : ∀ c, t.getLast? = some c → isspace c = false) (hne : t ≠ []) : trim t ≠ [] := by
  intro h
  have hall := (trim_eq_nil_iff t).mp h
  have hl := List.getLast?_eq_getLast t hne
  have h1 := hP _ hl
  have h2 := hall _ (List.getLast_mem hne)
  rw [h1] at h2
  exact absurd h2 (by simp)

/-- On a line without trailing whitespace, dropping a last empty field commutes
with trimming the fields. -/
theorem map_trim_dropLastEmpty_specFields (t : List Char)
    (hP : ∀ c, t.getLast? = some c → isspace c = false) :
    (dropLastEmpty (specFields t)).map trim = dropLastEmpty ((specFields t).map trim) := by
  induction t with
  | nil => simp [specFields_nil, dropLastEmpty, trim_nil]
  | cons c t ih =>
    have hP' : ∀ x, t.getLast? = some x → isspace x = false := by
      intro x hx
      apply hP
      cases t with
      | nil => simp at hx
      | cons y ys => rw [List.getLast?_cons_cons]; exact hx
    have ih' := ih hP'
    obtain ⟨f, fs, hf⟩ := List.exists_cons_of_ne_nil (specFields_ne_nil t)
    rw [hf] at ih'
    rw [specFields_cons, hf]
    by_cases hc : c = ','
    · rw [if_pos hc]
      simp only [dropLastEmpty, List.map_cons, trim_nil] at ih' ⊢
      rw [ih']
    · rw [if_neg hc]
      cases fs with
      | nil =>
        have hft : f = t := specFields_singleton hf
        have hne : trim (c :: f) ≠ [] := by
          rw [hft]
          exact trim_ne_nil_of_getLast hP (by simp)
        simp [dropLastEmpty, hne]
      | cons g gs =>
        simp only [dropLastEmpty, List.map_cons, List.modifyHead_cons, List.cons.injEq,
          true_and] at ih' ⊢
        exact ih'

/-- The columns that the loader gets for a line: the trimmed comma-separated
fields of the line, without the last one when it is empty after trimming. -/
theorem splitCSV_trim (raw : List Char) :
    splitCSV (trim raw) = dropLastEmpty ((specFields raw).map trim) := by
  rw [splitCSV_eq, map_trim_dropLastEmpty_specFields _ (getLast_trim raw),
    map_trim_specFields_trim]

theorem trim_isEmpty_iff (raw : List Char) :
    (trim raw).isEmpty = true ↔ (specFields raw).map trim = [[]] := by
  rw [List.isEmpty_iff]
  constructor
  · intro h
    have hall := (trim_eq_nil_iff raw).mp h
    have hno : ',' ∉ raw := fun hh => isspace_ne_comma (hall _ hh) rfl
    rw [specFields_of_no_comma raw hno]
    simp [h]
  · intro h
    cases hF : specFields raw with
    | nil => exact absurd hF (specFields_ne_nil raw)
    | cons f fs =>
      rw [hF] at h
      cases fs with
      | nil =>
        have hfr : f = raw := specFields_singleton hF
        rw [← hfr]
        simpa using h
      | cons g gs => simp at h

theorem courseOfCols_congr (cols1 cols2 : List (List Char)) (h1 : ¬ cols1.length < 2)
    (h2 : ¬ cols2.length < 2) (h : cols1 = cols2) :
    courseOfCols cols1 h1 = courseOfCols cols2 h2 := by
  subst h
  rfl

/-- The outcome of the loop body for a line depends on the line only through
its trimmed comma-separated fields. -/
theorem loadLine_congr (st : LoadState) (raw1 raw2 : List Char)
    (h : (specFields raw1).map trim = (specFields raw2).map trim) :
    loadLine st raw1 = loadLine st raw2 := by
  have hcols : splitCSV (trim raw1) = splitCSV (trim raw2) := by
    rw [splitCSV_trim, splitCSV_trim, h]
  have hemp : (trim raw1).isEmpty = (trim raw2).isEmpty := by
    have h1 := trim_isEmpty_iff raw1
    have h2 := trim_isEmpty_iff raw2
    rw [h] at h1
    cases hb1 : (trim raw1).isEmpty <;> cases hb2 : (trim raw2).isEmpty <;> simp_all
  cases hb : (trim raw1).isEmpty with
  | true =>
    rw [loadLine_blank st raw1 hb, loadLine_blank st raw2 (hemp ▸ hb)]
  | false =>
    have hb2 : (trim raw2).isEmpty = false := hemp ▸ hb
    by_cases hl : (splitCSV (trim raw1)).length < 2
    · rw [loadLine_malformed st raw1 hb hl, loadLine_malformed st raw2 hb2 (hcols ▸ hl)]
    · have hl2 : ¬ (splitCSV (trim raw2)).length < 2 := hcols ▸ hl
      rw [loadLine_accepted st raw1 hb hl, loadLine_accepted st raw2 hb2 hl2,
        courseOfCols_congr _ _ hl hl2 hcols]

/-- The number of columns that `splitCSV` delivers: one per comma, and one more
unless the line is empty or ends with a comma. -/
theorem length_splitLoop (tok s : List Char) :
    (splitLoop tok s).length =
      s.count ',' + (if (s = [] ∧ tok = []) ∨ s.getLast? = some ',' then 0 else 1) := by
  induction s generalizing tok with
  | nil => by_cases ht : tok = [] <;> simp [splitLoop, ht]
  | cons c s ih =>
    by_cases hc : c = ','
    · subst hc
      rw [splitLoop, if_pos rfl, List.length_cons, ih]
      cases s with
      | nil => simp
      | cons d ds => simp; omega
    · rw [splitLoop, if_neg hc, ih]
      have hc' : ¬ (c == ',') = true := by simpa using hc
      cases s with
      | nil => simp [hc, List.count_cons, hc']
      | cons d ds => simp [List.count_cons, hc']

theorem length_splitCSV (line : List Char) :
    (splitCSV line).length =
      line.count ',' + (if line = [] ∨ line.getLast? = some ',' then 0 else 1) := by
  unfold splitCSV
  rw [length_splitLoop]
  simp

/-! ## The claims about whitespace and commas -/

/-- The field `g` is the field `f` with whitespace characters added before and
after it. -/
def Padded (f g : List Char) : Prop :=
  ∃ a b : List Char, (∀ c ∈ a, isspace c = true) ∧ (∀ c ∈ b, isspace c = true) ∧
    g = a ++ f ++ b

theorem map_trim_of_padded (fs gs : List (List Char)) (h : List.Forall₂ Padded fs gs) :
    gs.map trim = fs.map trim := by
  induction h with
  | nil => rfl
  | cons hfg _ ih =>
    obtain ⟨a, b, ha, hb, hg⟩ := hfg
    rw [List.map_cons, List.map_cons, ih, hg, trim_append_ws _ _ hb, trim_ws_append _ _ ha]

theorem no_comma_of_padded (fs gs : List (List Char)) (h : List.Forall₂ Padded fs gs)
    (hf : ∀ f ∈ fs, ',' ∉ f) : ∀ g ∈ gs, ',' ∉ g := by
  induction h with
  | nil => simp
  | cons hfg _ ih =>
    obtain ⟨a, b, ha, hb, hg⟩ := hfg
    intro g hgm
    rcases List.mem_cons.mp hgm with h1 | h1
    · rw [h1, hg]
      intro hm
      rcases List.mem_append.mp hm with h2 | h2
      · rcases List.mem_append.mp h2 with h3 | h3
        · exact isspace_ne_comma (ha _ h3) rfl
        · exact hf _ (List.mem_cons_self _ _) h3
      · exact isspace_ne_comma (hb _ h2) rfl
    · exact ih (fun f hfm => hf f (List.mem_cons_of_mem _ hfm)) g h1

/-- C15: adding whitespace characters before or after any of the
comma-separated fields of a line, hence also before or after the whole line,
does not change what the loop body does with the line: the state after it (the
skip, the warning, or the record inserted) is the same. -/
theorem whitespace_padding_irrelevant (st : LoadState) (raw : List Char)
    (gs : List (List Char)) (h : List.Forall₂ Padded (specFields raw) gs) :
    loadLine st ([','].intercalate gs) = loadLine st raw ∧
      ∀ a b : List Char, (∀ c ∈ a, isspace c = true) → (∀ c ∈ b, isspace c = true) →
        loadLine st (a ++ raw ++ b) = loadLine st raw := by
  constructor
  · apply loadLine_congr
    have hne : gs ≠ [] := by
      intro he
      rw [he] at h
      cases hF : specFields raw with
      | nil => exact specFields_ne_nil raw hF
      | cons f fs => rw [hF] at h; cases h
    have hno := no_comma_of_padded _ _ h (not_comma_mem_specFields raw)
    have hs : specFields ([','].intercalate gs) = gs :=
      List.splitOn_intercalate gs ',' hno hne
    rw [hs]
    exact map_trim_of_padded _ _ h
  · intro a b ha hb
    have ht : trim (a ++ raw ++ b) = trim raw := by
      rw [trim_append_ws _ _ hb, trim_ws_append _ _ ha]
    unfold loadLine
    rw [ht]

theorem whitespace_padding_irrelevant_witness :
    List.Forall₂ Padded (specFields "CS101,Intro,CS100".toList)
        [" CS101 ".toList, "Intro  ".toList, " CS100".toList] ∧
      loadLine ⟨CourseBST.new, 0, 0, []⟩
          ([','].intercalate [" CS101 ".toList, "Intro  ".toList, " CS100".toList]) =
        loadLine ⟨CourseBST.new, 0, 0, []⟩ "CS101,Intro,CS100".toList :=
  have hs : specFields "CS101,Intro,CS100".toList =
      ["CS101".toList, "Intro".toList, "CS100".toList] := by decide
  have hp : List.Forall₂ Padded (specFields "CS101,Intro,CS100".toList)
      [" CS101 ".toList, "Intro  ".toList, " CS100".toList] := by
    rw [hs]
    exact List.Forall₂.cons ⟨" ".toList, " ".toList, by decide, by decide, by decide⟩
      (List.Forall₂.cons ⟨[], "  ".toList, by decide, by decide, by decide⟩
        (List.Forall₂.cons ⟨" ".toList, [], by decide, by decide, by decide⟩
          List.Forall₂.nil))
  ⟨hp, (whitespace_padding_irrelevant _ _ _ hp).1⟩

/-- C19, what the code does: for the line "CS101,", which is not empty after
trimming and has one comma, `splitCSV` delivers the single column "CS101", so
the loop body writes the warning and inserts nothing, whereas the line
"CS101,," gives a record with an empty title. In general `splitCSV` delivers
one column per comma and one more only when the line does not end with a
comma, so a line is malformed exactly when, trimmed, it is not empty and has no
comma or has its only comma at the end. -/
theorem trailing_comma_line_is_rejected :
    (trim "CS101,".toList).isEmpty = false ∧
      (trim "CS101,".toList).count ',' = 1 ∧
      splitCSV (trim "CS101,".toList) = ["CS101".toList] ∧
      recordOf "CS101,".toList = none ∧
      isMalformedLine "CS101,".toList = true ∧
      loadLine ⟨CourseBST.new, 0, 0, []⟩ "CS101,".toList = ⟨CourseBST.new, 1, 0, [1]⟩ ∧
      recordOf "CS101,,".toList = some ⟨"CS101".toList, [], []⟩ ∧
      (∀ line : List Char, (splitCSV line).length =
        line.count ',' + (if line = [] ∨ line.getLast? = some ',' then 0 else 1)) ∧
      (∀ raw : List Char, isMalformedLine raw = true ↔
        (trim raw ≠ [] ∧ ((trim raw).count ',' = 0 ∨
          ((trim raw).count ',' = 1 ∧ (trim raw).getLast? = some ',')))) := by
  refine ⟨by decide, by decide, by decide, by decide, by decide, by decide, by decide,
    length_splitCSV, ?_⟩
  intro raw
  unfold isMalformedLine
  rw [Bool.and_eq_true, decide_eq_true_iff, length_splitCSV]
  have he : (!(trim raw).isEmpty) = true ↔ trim raw ≠ [] := by
    cases trim raw <;> simp
  rw [he]
  constructor
  · rintro ⟨hne, hlt⟩
    refine ⟨hne, ?_⟩
    by_cases hl : (trim raw).getLast? = some ','
    · simp only [hl, or_true, if_true] at hlt
      by_cases h0 : (trim raw).count ',' = 0
      · exact Or.inl h0
      · exact Or.inr ⟨by omega, hl⟩
    · simp only [hne, hl, or_self, if_false] at hlt
      exact Or.inl (by omega)
  · rintro ⟨hne, h0 | ⟨h1, hl⟩⟩
    · refine ⟨hne, ?_⟩
      rw [h0]
      split <;> omega
    · refine ⟨hne, ?_⟩
      rw [h1]
      simp [hl]

/-! ## The count returned and the fields of the lines -/

theorem length_specFields (s : List Char) : (specFields s).length = s.count ',' + 1 := by
  induction s with
  | nil => rfl
  | cons c s ih =>
    obtain ⟨f, fs, hf⟩ := List.exists_cons_of_ne_nil (specFields_ne_nil s)
    rw [specFields_cons]
    by_cases hc : c = ','
    · subst hc
      rw [if_pos rfl, List.length_cons, ih]
      simp
    · have hc' : ¬ (c == ',') = true := by simpa using hc
      have hlen : ((specFields s).modifyHead (List.cons c)).length = (specFields s).length := by
        rw [hf]
        rfl
      rw [if_neg hc, hlen, ih]
      simp [List.count_cons, hc']

theorem length_specFields_trim (raw : List Char) :
    (specFields (trim raw)).length = (specFields raw).length := by
  have h := congrArg List.length (map_trim_specFields_trim raw)
  simpa using h

/-- The test that lets the loop body count a line, on the fields of the line:
the line is not blank and has at least 2 trimmed fields once a last field that
is empty after trimming is left out. -/
theorem isValidLine_eq (raw : List Char) :
    isValidLine raw =
      (!(trim raw).isEmpty &&
        decide (2 ≤ (dropLastEmpty ((specFields raw).map trim)).length)) := by
  unfold isValidLine
  rw [splitCSV_trim]
  congr 1
  simp [Nat.not_lt]

/-- When the trimmed line does not end with a comma, the loop body counts it
exactly when it is not blank and has at least 2 comma-separated fields. -/
theorem isValidLine_of_no_trailing_comma (raw : List Char)
    (h : (trim raw).getLast? ≠ some ',') :
    isValidLine raw = (!(trim raw).isEmpty && decide (2 ≤ (specFields raw).length)) := by
  unfold isValidLine
  cases he : (trim raw).isEmpty with
  | true => rfl
  | false =>
    have hne : trim raw ≠ [] := by
      intro h0
      rw [h0] at he
      simp at he
    rw [length_splitCSV, ← length_specFields_trim, length_specFields]
    simp [hne, h, Nat.not_lt]

/-- C11, what the code does: the source with the single line "CS101,", which is
not blank and has 2 comma-separated fields, gives the returned count 0, and in
the source "bad", "CS200,", "CS300,X" the line "CS200," after the malformed
line is not counted (returned 1, warnings for lines 1 and 2, although 2 lines
have at least 2 fields). In general the returned count is the number of lines
that are not blank and have at least 2 trimmed fields once a last field that is
empty after trimming is left out; it is the number of non-blank lines with at
least 2 fields whenever no trimmed line ends with a comma, and lines before a
counted line, malformed or not, never change that it is counted. -/
theorem trailing_comma_line_is_not_counted :
    (loadCoursesFromCSV (some ["CS101,".toList]) CourseBST.new).returned = 0 ∧
      (["CS101,".toList].filter
        (fun raw => !(trim raw).isEmpty && decide (2 ≤ (specFields raw).length))).length = 1 ∧
      (loadCoursesFromCSV (some ["bad".toList, "CS200,".toList, "CS300,X".toList])
        CourseBST.new).returned = 1 ∧
      (loadCoursesFromCSV (some ["bad".toList, "CS200,".toList, "CS300,X".toList])
        CourseBST.new).warnings = [1, 2] ∧
      (["bad".toList, "CS200,".toList, "CS300,X".toList].filter
        (fun raw => !(trim raw).isEmpty && decide (2 ≤ (specFields raw).length))).length = 2 ∧
      (∀ (lines : List (List Char)) (bst : CourseBST),
        (loadCoursesFromCSV (some lines) bst).returned =
          (lines.filter (fun raw => !(trim raw).isEmpty &&
            decide (2 ≤ (dropLastEmpty ((specFields raw).map trim)).length))).length) ∧
      (∀ (lines : List (List Char)) (bst : CourseBST),
        (∀ raw ∈ lines, (trim raw).getLast? ≠ some ',') →
        (loadCoursesFromCSV (some lines) bst).returned =
          (lines.filter (fun raw => !(trim raw).isEmpty &&
            decide (2 ≤ (specFields raw).length))).length) ∧
      (∀ (pre post : List (List Char)) (bst : CourseBST),
        (loadCoursesFromCSV (some (pre ++ post)) bst).returned =
          (loadCoursesFromCSV (some pre) bst).returned +
            (loadCoursesFromCSV (some post) bst).returned) := by
  refine ⟨by decide, by decide, by decide, by decide, by decide, ?_, ?_, ?_⟩
  · intro lines bst
    rw [loadCoursesFromCSV_returned]
    congr 1
    apply List.filter_congr
    intro raw _
    exact isValidLine_eq raw
  · intro lines bst hno
    rw [loadCoursesFromCSV_returned]
    congr 1
    apply List.filter_congr
    intro raw hraw
    exact isValidLine_of_no_trailing_comma raw (hno raw hraw)
  · intro pre post bst
    rw [loadCoursesFromCSV_returned, loadCoursesFromCSV_returned, loadCoursesFromCSV_returned,
      List.filter_append, List.length_append]

end CS300
